import Mathlib

/-!
Verification of the utility library of an Advent-of-Code-style repository.

The development shallowly embeds the functions named by the specification:
the binary GCD / LCM pair, Heap's-algorithm permutation generation and its
recursive fallback, range merging, and the small array/grid helpers
(`windows`, `transpose`, `create2DArray`, `unique`), together with the
per-day test-harness skip logic.

Modelling conventions:
* JavaScript numbers are embedded as `Int`/`Nat`/`Rat`; where `>>`, `|`,
  `&`, `<<` occur (the binary GCD), their JS semantics (coercion to 32-bit
  integers) agrees with the `Nat` bitwise operators exactly on operands
  whose absolute value is below `2 ^ 31`, so the faithfulness domain of the
  `gcd` embedding is `|a|, |b| < 2 ^ 31`; similarly JS float arithmetic is
  exact on integers below `2 ^ 53`, the faithfulness domain of `lcm`.
* while-loops are embedded as fuel-indexed step functions returning
  `Option`; `none` means the loop has not finished within the given fuel,
  and divergence of the source loop is expressed as `none` for every fuel.
* a thrown TypeError (reading a property of `undefined`) is `none`.
-/

namespace AoC

section NumberTheory

/-- Phase 1 of the binary GCD of [src/unnamed/part_001 lines 49-53]:
`while (((a | b) & 1) === 0) { a >>= 1; b >>= 1; shift++; }`,
one loop iteration per unit of fuel. -/
def stripCommon : ℕ → ℕ → ℕ → ℕ → Option (ℕ × ℕ × ℕ)
  | 0, _, _, _ => none
  | fuel + 1, a, b, shift =>
    if (a ||| b) &&& 1 = 0 then stripCommon fuel (a >>> 1) (b >>> 1) (shift + 1)
    else some (a, b, shift)

/-- Phase 2 of the binary GCD of [src/unnamed/part_001 line 56]:
`while ((a & 1) === 0) a >>= 1;` (also the inner stripping loop on `b`,
line 60). -/
def stripTwos : ℕ → ℕ → Option ℕ
  | 0, _ => none
  | fuel + 1, a => if a &&& 1 = 0 then stripTwos fuel (a >>> 1) else some a

/-- Phase 3 of the binary GCD of [src/unnamed/part_001 lines 58-66]:
`while (b) { while ((b & 1) === 0) b >>= 1; if (a > b) [a,b] = [b,a]; b -= a; }`,
unrolled one basic step per unit of fuel (the swap-then-subtract step
`[a,b] = [b,a]; b -= a` becomes `(b, a - b)`). -/
def subtractLoop : ℕ → ℕ → ℕ → Option ℕ
  | 0, _, _ => none
  | fuel + 1, a, b =>
    if b = 0 then some a
    else if b &&& 1 = 0 then subtractLoop fuel a (b >>> 1)
    else if a > b then subtractLoop fuel b (a - b)
    else subtractLoop fuel a (b - a)

/-- The binary GCD `gcd(a, b)` of [src/unnamed/part_001 lines 41-70]:
absolute values are taken first (lines 42-43), then the three loop phases
run, and the result is `a << shift` (line 69). `none` means the function
has not returned within `fuel` loop iterations. -/
def gcdFuel (fuel : ℕ) (a b : ℤ) : Option ℤ :=
  match stripCommon fuel a.natAbs b.natAbs 0 with
  | none => none
  | some (a1, b1, shift) =>
    match stripTwos fuel a1 with
    | none => none
    | some a2 =>
      match subtractLoop fuel a2 b1 with
      | none => none
      | some g => some ((g <<< shift : ℕ) : ℤ)

/-- The `lcm(a, b) = Math.abs(a * b) / gcd(a, b)` of
[src/unnamed/part_001 lines 110-112]; the division is exact on the
faithfulness domain since `gcd(a, b)` divides `|a * b|`. -/
def lcmFuel (fuel : ℕ) (a b : ℤ) : Option ℤ :=
  (gcdFuel fuel a b).map (fun g => ((a * b).natAbs : ℤ) / g)

end NumberTheory

section Permutations

variable {α : Type*} {β : Type*}

/-- The in-place swap `temp = array[i]; array[i] = array[k]; array[k] = temp`
of [src/unnamed/part_001 lines 208-210] (identity when an index is out of
bounds, which the algorithm never does). -/
def swapL (l : List α) (i k : ℕ) : List α :=
  match l[i]?, l[k]? with
  | some x, some y => (l.set i y).set k x
  | _, _ => l

/-- The iterative Heap's-algorithm loop of [src/unnamed/part_001 lines
203-222], one loop iteration per unit of fuel. State: the (mutated) array,
the counter array `c` (as a function, initially all zeroes) and the index
`i`. Returns the list of pushed copies (`result.push(array.slice())`)
together with the final state of the mutated input array. -/
def heapRun : ℕ → List α → (ℕ → ℕ) → ℕ → Option (List (List α) × List α)
  | 0, _, _, _ => none
  | fuel + 1, array, c, i =>
    if i < array.length then
      if c i < i then
        let k := if i % 2 = 1 then c i else 0
        let arr' := swapL array i k
        (heapRun fuel arr' (fun j => if j = i then c i + 1 else c j) 0).map
          (fun p => (arr' :: p.1, p.2))
      else
        heapRun fuel array (fun j => if j = i then 0 else c j) (i + 1)
    else
      some ([], array)

/-- Exact number of loop iterations the Heap loop takes to run the full
sub-generation on the first `m` positions (derived below in
`heapRun_block`); `stepsB (array.length) + 1` is enough fuel for the whole
loop. -/
def stepsB : ℕ → ℕ
  | 0 => 0
  | m + 1 => stepsB m + (m * (1 + stepsB m) + 1)

/-- The recursive fallback generator `getPermutationsLarger` of
[src/unnamed/part_001 lines 227-246], parametrised by the function it
recurses through (`getPermutations` in the source): for each index `i`,
take `array[i]` first, recurse on the array with index `i` spliced out
(`array.slice(0, i) ++ array.slice(i + 1)`), and prepend. -/
def getPermutationsLarger (recurse : List α → List (List α)) (array : List α) :
    List (List α) :=
  if array.length ≤ 1 then [array]
  else
    ((List.range array.length).map (fun i =>
      match array[i]? with
      | some current => (recurse (array.eraseIdx i)).map (fun p => current :: p)
      | none => [])).flatten

/-- The `getPermutations` dispatcher of [src/unnamed/part_001 lines
189-225] with an explicit structural-recursion fuel (the source recursion
decreases the array length through `getPermutationsLarger`, so
`array.length` is always enough fuel): length at most 1 returns
`[array.slice()]`; length above 8 falls back to the recursive generator;
otherwise the iterative Heap loop runs, the first pushed permutation being
the input itself (line 201). -/
def getPermsAux : ℕ → List α → List (List α)
  | 0, array => [array]
  | fuel + 1, array =>
    if array.length ≤ 1 then [array]
    else if 8 < array.length then getPermutationsLarger (getPermsAux fuel) array
    else
      match heapRun (stepsB array.length + 1) array (fun _ => 0) 0 with
      | some (out, _) => array :: out
      | none => [array]

/-- The source entry point `getPermutations(array)`. -/
def getPermutations (array : List α) : List (List α) :=
  getPermsAux array.length array

/-- The state of the argument array after `getPermutations(array)` returns:
the base case and the fallback read but never write the input, while the
Heap branch mutates it in place and leaves it in the machine's final
state. -/
def getPermutationsEffect (array : List α) : List α :=
  if array.length ≤ 1 then array
  else if 8 < array.length then array
  else
    match heapRun (stepsB array.length + 1) array (fun _ => 0) 0 with
    | some (_, fin) => fin
    | none => array

/-- Recursive block decomposition of the Heap loop, for verification: with
the counters below `m` at zero, the loop beginning at `i = 0` emits
`(heapBlock m arr).1` and transforms the array into `(heapBlock m arr).2`
before first reaching `i = m` (proved in `heapRun_block`). Level `m + 1`
runs level `m`, then `m` times: swap positions `m` and
`(i % 2 && c[i])`, emit, and run level `m` again. -/
def heapBlock : ℕ → List α → List (List α) × List α
  | 0, arr => ([], arr)
  | m + 1, arr =>
    (List.range m).foldl
      (fun acc t =>
        let a' := swapL acc.2 m (if m % 2 = 1 then t else 0)
        let p := heapBlock m a'
        (acc.1 ++ (a' :: p.1), p.2))
      (heapBlock m arr)

/-- The final array of `heapBlock`, computed without building the emission
list (used for fast concrete evaluation). -/
def heapBlockFin : ℕ → List α → List α
  | 0, arr => arr
  | m + 1, arr =>
    (List.range m).foldl
      (fun a t => heapBlockFin m (swapL a m (if m % 2 = 1 then t else 0)))
      (heapBlockFin m arr)

/-- All arrays pushed for the first `m` positions, the initial array
included. -/
def allEmitted (m : ℕ) (arr : List α) : List (List α) :=
  arr :: (heapBlock m arr).1

/-- The start arrays of the sub-blocks after the first, at level `m`: for
each counter value `t`, swap positions `m` and `(m % 2 && t)`, then run the
level-`m` sub-generation. -/
def chainStarts (m : ℕ) : List ℕ → List α → List (List α)
  | [], _ => []
  | t :: ts, a =>
    let a' := swapL a m (if m % 2 = 1 then t else 0)
    a' :: chainStarts m ts (heapBlockFin m a')

/-- The start arrays of all `m + 1` sub-blocks of level `m + 1`. -/
def levelStarts (m : ℕ) (arr : List α) : List (List α) :=
  arr :: chainStarts m (List.range m) (heapBlockFin m arr)

/-- The element at position `m` of each sub-block start: the values Heap's
algorithm rotates into the last position of the prefix, one per
sub-block. -/
def lastVals (m : ℕ) (arr : List α) : List (Option α) :=
  (levelStarts m arr).map (fun s => s[m]?)

/-- Application of a precomputed index table: position `i` of the result
is position `LIT i` of the argument (used to evaluate `heapBlockFin` on
concrete index lists without deep recursion). -/
def evalIdx (LIT : List ℕ) (l : List ℕ) : List ℕ := LIT.map (fun j => l.getD j 0)

/-- The sub-block starts with the level-`m` final permutation replaced by
its precomputed index table, for shallow kernel evaluation. -/
def chainStartsL (LIT : List ℕ) (m : ℕ) : List ℕ → List ℕ → List (List ℕ)
  | [], _ => []
  | t :: ts, a =>
    let a' := swapL a m (if m % 2 = 1 then t else 0)
    a' :: chainStartsL LIT m ts (evalIdx LIT a')

/-- The per-level core fact of Heap's algorithm at prefix length `m + 1`:
on the index array `0, …, m`, the values brought into position `m` across
the `m + 1` sub-blocks are pairwise distinct and are exactly the `m + 1`
indices. -/
def LevelFact (m : ℕ) : Prop :=
  (lastVals m (List.range (m + 1))).Nodup ∧
  (lastVals m (List.range (m + 1))).Perm ((List.range (m + 1)).map some)

end Permutations

section Ranges

/-- Sorting key of [src/src/utils/ranges.ts line 55]:
`sort(([a], [b]) => a - b)` orders pairs by their start. -/
def startLE (p q : ℤ × ℤ) : Prop := p.1 ≤ q.1

instance : DecidableRel startLE := fun p q => inferInstanceAs (Decidable (p.1 ≤ q.1))

instance : IsTotal (ℤ × ℤ) startLE := ⟨fun p q => Int.le_total p.1 q.1⟩

instance : IsTrans (ℤ × ℤ) startLE := ⟨fun _ _ _ h h' => le_trans h h'⟩

/-- The merge loop of [src/src/utils/ranges.ts lines 58-67] on the sorted
list: only the most recently merged range is ever extended
(`merged[merged.length - 1][1] = Math.max(lastEnd, end)`), so the loop is
the recursion on the remaining ranges carrying that last range. -/
def mergeLoop : ℤ × ℤ → List (ℤ × ℤ) → List (ℤ × ℤ)
  | last, [] => [last]
  | last, (s, e) :: rest =>
    if s ≤ last.2 + 1 then mergeLoop (last.1, max last.2 e) rest
    else last :: mergeLoop (s, e) rest

/-- The `mergeRanges(ranges)` of [src/src/utils/ranges.ts lines 52-70]
(returned value): empty input returns `[]`; otherwise sort by start and
fold the merge loop from the first sorted range. -/
def mergeRanges (ranges : List (ℤ × ℤ)) : List (ℤ × ℤ) :=
  match List.insertionSort startLE ranges with
  | [] => []
  | r0 :: rest => mergeLoop r0 rest

/-- The integer points covered by a list of closed ranges. -/
def covers (l : List (ℤ × ℤ)) (p : ℤ) : Prop :=
  ∃ r ∈ l, r.1 ≤ p ∧ p ≤ r.2

/-- A canonical merged form: every range nonempty (`start ≤ end`) and
consecutive ranges separated by a gap of at least 2 (neither overlapping
nor adjacent), which also makes the starts strictly increasing. -/
def Canonical (l : List (ℤ × ℤ)) : Prop :=
  (∀ r ∈ l, r.1 ≤ r.2) ∧ l.Chain' (fun r r' => r.2 + 1 < r'.1)

/-- Stable insertion sort of indices by an integer key, modelling the
`[...ranges].sort(([a], [b]) => a - b)` of the mutation model below. -/
def idxInsert (key : ℕ → ℤ) (i : ℕ) : List ℕ → List ℕ
  | [] => [i]
  | j :: js => if key i ≤ key j then i :: j :: js else j :: idxInsert key i js

/-- Insertion sort used by the mutation model. -/
def idxSort (key : ℕ → ℤ) : List ℕ → List ℕ
  | [] => []
  | i :: is => idxInsert key i (idxSort key is)

/-- Heap-and-pointers model of the merge loop for the aliasing behaviour of
`mergeRanges`: `store` is the array of pair objects (indexed by their
position in the caller's array), `lastIdx` the index of the pair currently
last in `merged`; extending the last merged range writes through to the
store, i.e. to the caller's pair object. Returns the final store and the
indices collected in `merged`. -/
def mergeEffectGo : List (ℤ × ℤ) → ℕ → List ℕ → List ℕ → List (ℤ × ℤ) × List ℕ
  | store, lastIdx, accRev, [] => (store, (lastIdx :: accRev).reverse)
  | store, lastIdx, accRev, idx :: rest =>
    let lastR := store.getD lastIdx (0, 0)
    let curR := store.getD idx (0, 0)
    if curR.1 ≤ lastR.2 + 1 then
      mergeEffectGo (store.set lastIdx (lastR.1, max lastR.2 curR.2)) lastIdx accRev rest
    else
      mergeEffectGo store idx (lastIdx :: accRev) rest

/-- The `mergeRanges` of [src/src/utils/ranges.ts lines 52-70] with its
effect on the caller's pair objects: `[...ranges]` copies the outer array
but shares the inner pairs, so `merged[merged.length - 1][1] = ...`
overwrites the end of a pair of the input. Returns
(returned value, final contents of the caller's array). -/
def mergeRangesEffect (ranges : List (ℤ × ℤ)) : List (ℤ × ℤ) × List (ℤ × ℤ) :=
  match idxSort (fun i => (ranges.getD i (0, 0)).1) (List.range ranges.length) with
  | [] => ([], ranges)
  | i0 :: rest =>
    let p := mergeEffectGo ranges i0 [] rest
    (p.2.map (fun i => p.1.getD i (0, 0)), p.1)

end Ranges

section ArrayHelpers

variable {α : Type*}

/-- The `transpose(matrix)` of [src/src/utils/array.ts lines 448-454]:
`matrix[0].map((_, colIndex) => matrix.map(row => row[colIndex]))`. On the
empty matrix `matrix[0]` is `undefined` and `.map` on it throws a
TypeError, embedded as `none`; an out-of-range `row[colIndex]` is the
JS `undefined`, embedded as the inner `Option`. -/
def transpose (matrix : List (List α)) : Option (List (List (Option α))) :=
  match matrix with
  | [] => none
  | row0 :: _ =>
    some (row0.mapIdx fun colIndex _ => matrix.map fun row => row[colIndex]?)

/-- The `windows(array, size)` of [src/src/utils/array.ts lines 161-171]:
`if (size > array.length) return []`, else one slice
`array.slice(i, i + size)` for each `i` from `0` to `array.length - size`. -/
def windows (array : List α) (size : ℕ) : List (List α) :=
  if array.length < size then []
  else (List.range (array.length - size + 1)).map fun i => (array.drop i).take size

end ArrayHelpers

section Create2D

/-- JavaScript values as far as `create2DArray` inspects them: numbers
(doubles, embedded as rationals), strings and booleans. -/
inductive JSValue where
  | num (q : ℚ)
  | str (s : String)
  | bool (b : Bool)
deriving DecidableEq

/-- A row of the grid built by `create2DArray`: either a `Uint8Array`
(whose cells can, by construction, only hold integers in `[0, 256)`) or a
plain array. -/
inductive Row where
  | uint8 (cells : List (Fin 256))
  | plain (cells : List JSValue)
deriving DecidableEq

/-- The special-case test of [src/src/utils/array.ts lines 238-243]:
`typeof defaultValue === "number" && Number.isInteger(defaultValue) &&
defaultValue >= 0 && defaultValue < 256`. -/
def isSmallUint : JSValue → Bool
  | .num q => decide (q.den = 1 ∧ 0 ≤ q.num ∧ q.num < 256)
  | _ => false

/-- The `create2DArray(rows, cols, defaultValue)` of
[src/src/utils/array.ts lines 232-263]: small unsigned integer defaults
get `rows` filled `Uint8Array(cols)` buffers, every other default gets
plain rows filled with the default. -/
def create2DArray (rows cols : ℕ) (defaultValue : JSValue) : List Row :=
  match defaultValue with
  | .num q =>
    if h : q.den = 1 ∧ 0 ≤ q.num ∧ q.num < 256 then
      List.replicate rows (Row.uint8 (List.replicate cols ⟨q.num.toNat, by omega⟩))
    else
      List.replicate rows (Row.plain (List.replicate cols (.num q)))
  | v => List.replicate rows (Row.plain (List.replicate cols v))

/-- JS ToIntegerOrInfinity on a rational: truncation toward zero. -/
def jsTrunc (q : ℚ) : ℤ := if 0 ≤ q then ⌊q⌋ else ⌈q⌉

/-- The value a `Uint8Array` cell receives when a number is stored into it
(ECMAScript ToUint8): truncate toward zero, then reduce modulo 256. -/
def uint8Store (q : ℚ) : Fin 256 := ⟨(jsTrunc q % 256).toNat, by omega⟩

/-- Storing a number into cell `j` of a row: through a `Uint8Array` row the
value is coerced by ToUint8; through a plain row it is stored as is. -/
def setCell (r : Row) (j : ℕ) (q : ℚ) : Row :=
  match r with
  | .uint8 cells => .uint8 (cells.set j (uint8Store q))
  | .plain cells => .plain (cells.set j (.num q))

/-- Reading cell `j` of a row, as the JS value an element access yields. -/
def cellValue (r : Row) (j : ℕ) : Option JSValue :=
  match r with
  | .uint8 cells => (cells[j]?).map (fun c => .num (c.val : ℚ))
  | .plain cells => cells[j]?

/-- The number of cells of a row. -/
def rowLength : Row → ℕ
  | .uint8 cells => cells.length
  | .plain cells => cells.length

/-- Whether a row is a typed 8-bit buffer. -/
def isUint8Row : Row → Bool
  | .uint8 _ => true
  | .plain _ => false

end Create2D

section Unique

variable {α : Type*} [DecidableEq α]

/-- The small-array branch of `unique` [src/src/utils/array.ts line 331]:
`[...new Set(arr)]`. A JS `Set` iterates in insertion order, so the spread
lists each distinct element at its first occurrence. -/
def uniqueSet (arr : List α) : List α :=
  arr.foldl (fun acc x => if x ∈ acc then acc else acc ++ [x]) []

/-- The loop of the large-array branch of `unique`
[src/src/utils/array.ts lines 335-344]: push each element not yet in the
`seen` map, recorded per element. -/
def uniqueMapGo : List α → List α → List α
  | [], _ => []
  | x :: xs, seen =>
    if x ∈ seen then uniqueMapGo xs seen else x :: uniqueMapGo xs (x :: seen)

/-- The large-array branch of `unique`. -/
def uniqueMap (arr : List α) : List α := uniqueMapGo arr []

/-- The `unique(arr)` of [src/src/utils/array.ts lines 326-345]: the `Set`
branch for fewer than 1000 elements, the `Map` branch otherwise. -/
def unique (arr : List α) : List α :=
  if arr.length < 1000 then uniqueSet arr else uniqueMap arr

/-- First-occurrence deduplication, written from the specification's words
(each distinct element exactly once, in order of first occurrence in the
input), for comparison with both branches of `unique`. -/
def dedupFirst : List α → List α
  | [] => []
  | x :: xs => x :: (dedupFirst xs).filter (fun y => y ≠ x)

end Unique

section TestHarness

variable {Answer : Type} [DecidableEq Answer]

/-- One sample case of a day's test table [src/src/2024/day8/test.ts lines
17-30]: a literal input and the expected answer. -/
structure TestCase (Answer : Type) where
  input : String
  expected : Answer

/-- Modelled from the spec: `runTestPart` lives in
src/utils/test_utils.ts, which is not among the provided sources; per the
specification the harness "runs the solution against the sample and
reports pass/fail by equality", so it is the conjunction of the equality
checks. -/
def runTestPart (partFn : String → Answer) (cases : List (TestCase Answer)) : Bool :=
  cases.all (fun c => decide (partFn c.input = c.expected))

/-- Modelled from the spec: the `log` used by the skip branch comes from
the logger module, not among the provided sources; it is modelled as the
message it emits. -/
def noTestsMsg (partNum : ℕ) : String :=
  "No tests defined for Part " ++ toString partNum

/-- The per-part runner of [src/src/2024/day8/test.ts lines 32-46]:
`if (!tests.partN?.length) { log("... No tests defined ..."); return true; }`
— a missing or empty case list logs the skip warning and returns `true`;
otherwise `runTestPart` decides the result. Returns (result, log lines). -/
def runPartTests (partFn : String → Answer) (cases : Option (List (TestCase Answer)))
    (partNum : ℕ) : Bool × List String :=
  match cases with
  | none => (true, [noTestsMsg partNum])
  | some cs =>
    if cs.length = 0 then (true, [noTestsMsg partNum])
    else (runTestPart partFn cs, [])

end TestHarness

/-! ## Theorems -/

section ErrorHandlingClaims

variable {α : Type*}

/-- C3 (counterexample): `transpose` applied to the empty matrix does not
return an empty result: `matrix[0]` is `undefined`, so `matrix[0].map`
throws a TypeError (embedded as `none`). -/
theorem claim_C3_counterexample : transpose ([] : List (List ℕ)) = none := rfl

/-- C3 (amended): `windows` with `size` larger than the array's length
returns the empty result, but `transpose` applied to an empty matrix
throws a TypeError (reading `matrix[0]` of the empty array) rather than
returning an empty result. -/
theorem claim_C3_out_of_domain (array : List α) (size : ℕ)
    (h : array.length < size) :
    windows array size = [] ∧ transpose ([] : List (List α)) = none :=
  ⟨by simp [windows, h], rfl⟩

/-- C3 (witness): the amended claim at `array = [1, 2, 3]`, `size = 5`. -/
theorem claim_C3_witness :
    windows [1, 2, 3] 5 = [] ∧ transpose ([] : List (List ℕ)) = none :=
  claim_C3_out_of_domain [1, 2, 3] 5 (by decide)

/-- C4: a part with zero defined test cases (a missing or empty case
list) is reported as skipped (the no-tests warning is logged) and the
part's run returns `true`, without calling the solution. -/
theorem claim_C4_skip_empty {Answer : Type} [DecidableEq Answer]
    (partFn : String → Answer) (cases : Option (List (TestCase Answer)))
    (partNum : ℕ) (h : cases = none ∨ cases = some []) :
    runPartTests partFn cases partNum = (true, [noTestsMsg partNum]) := by
  rcases h with h | h <;> subst h <;> simp [runPartTests]

/-- C4 (witness): the skip behaviour at a concrete empty part. -/
theorem claim_C4_witness :
    runPartTests (fun _ => (0 : ℤ)) (some []) 1 = (true, [noTestsMsg 1]) :=
  claim_C4_skip_empty (fun _ => (0 : ℤ)) (some []) 1 (Or.inr rfl)

end ErrorHandlingClaims

section Create2DClaims

theorem create2DArray_num (rows cols : ℕ) (q : ℚ) :
    create2DArray rows cols (.num q) =
      if h : q.den = 1 ∧ 0 ≤ q.num ∧ q.num < 256 then
        List.replicate rows (Row.uint8 (List.replicate cols ⟨q.num.toNat, by omega⟩))
      else
        List.replicate rows (Row.plain (List.replicate cols (.num q))) := rfl

theorem create2DArray_str (rows cols : ℕ) (s : String) :
    create2DArray rows cols (.str s) =
      List.replicate rows (Row.plain (List.replicate cols (.str s))) := rfl

theorem create2DArray_bool (rows cols : ℕ) (b : Bool) :
    create2DArray rows cols (.bool b) =
      List.replicate rows (Row.plain (List.replicate cols (.bool b))) := rfl

theorem uint8Store_int (x : ℤ) : (uint8Store (x : ℚ) : ℤ) = x % 256 := by
  have htr : jsTrunc (x : ℚ) = x := by
    unfold jsTrunc
    split <;> simp
  simp only [uint8Store, htr]
  have h0 : (0 : ℤ) ≤ x % 256 := Int.emod_nonneg x (by norm_num)
  omega

theorem cellValue_uint8 (cells : List (Fin 256)) (j : ℕ) :
    cellValue (Row.uint8 cells) j = (cells[j]?).map (fun c => .num (c.val : ℚ)) := rfl

theorem cellValue_plain (cells : List JSValue) (j : ℕ) :
    cellValue (Row.plain cells) j = cells[j]? := rfl

theorem plainRow_facts (rows cols : ℕ) (w : JSValue) (j : ℕ) (hj : j < cols)
    (r : Row) (hr : r ∈ List.replicate rows (Row.plain (List.replicate cols w))) :
    rowLength r = cols ∧ isUint8Row r = false ∧ cellValue r j = some w ∧
    ∀ x : ℤ, cellValue (setCell r j (x : ℚ)) j = some (.num (x : ℚ)) := by
  have hr' := List.eq_of_mem_replicate hr
  subst hr'
  refine ⟨by simp [rowLength], rfl, ?_, ?_⟩
  · simp [cellValue, List.getElem?_replicate, hj]
  · intro x
    simp only [setCell, cellValue]
    rw [List.getElem?_set_self (by simpa using hj)]

/-- C9: `create2DArray` builds a `rows × cols` grid whose every cell reads
back as the default value; the rows are typed 8-bit buffers exactly when
the default is an integer in `[0, 256)` (and then an integer `x` stored
into a cell reads back as `x` reduced modulo `256`), while all other
defaults give plain rows that store values unreduced. -/
theorem claim_C9_create2DArray (rows cols : ℕ) (v : JSValue) (j : ℕ)
    (hj : j < cols) :
    (create2DArray rows cols v).length = rows ∧
    ∀ r ∈ create2DArray rows cols v,
      rowLength r = cols ∧ isUint8Row r = isSmallUint v ∧
      cellValue r j = some v ∧
      ∀ x : ℤ, cellValue (setCell r j (x : ℚ)) j =
        some (.num (if isUint8Row r then ((x % 256 : ℤ) : ℚ) else (x : ℚ))) := by
  cases v with
  | num q =>
    by_cases h : q.den = 1 ∧ 0 ≤ q.num ∧ q.num < 256
    · rw [create2DArray_num, dif_pos h]
      refine ⟨by simp, fun r hr => ?_⟩
      have hr' := List.eq_of_mem_replicate hr
      subst hr'
      have hq : ((q.num.toNat : ℚ)) = q := by
        rcases h with ⟨hden, hnum, _⟩
        have h1 : ((q.num.toNat : ℕ) : ℤ) = q.num := Int.toNat_of_nonneg hnum
        have h2 : ((q.num : ℤ) : ℚ) = q := by
          have h3 := Rat.num_div_den q
          rw [hden] at h3
          simpa using h3
        rw [← h2]
        exact_mod_cast congrArg (fun z : ℤ => (z : ℚ)) h1
      refine ⟨by simp [rowLength], by simp [isUint8Row, isSmallUint, h], ?_, ?_⟩
      · rw [cellValue_uint8, List.getElem?_replicate, if_pos hj]
        simp [hq]
      · intro x
        simp only [setCell, cellValue, isUint8Row, if_true]
        rw [List.getElem?_set_self (by simpa using hj)]
        have hst := uint8Store_int x
        have hq2 : (((uint8Store (x : ℚ)).val : ℕ) : ℚ) = ((x % 256 : ℤ) : ℚ) := by
          exact_mod_cast congrArg (fun z : ℤ => (z : ℚ)) hst
        simp [hq2]
    · rw [create2DArray_num, dif_neg h]
      refine ⟨by simp, fun r hr => ?_⟩
      obtain ⟨h1, h2, h3, h4⟩ := plainRow_facts rows cols (.num q) j hj r hr
      have hsm : isSmallUint (.num q) = false := by
        simp only [isSmallUint, decide_eq_false_iff_not]
        exact h
      refine ⟨h1, by rw [h2, hsm], h3, fun x => by simp [h4 x, h2]⟩
  | str s =>
    rw [create2DArray_str]
    refine ⟨by simp, fun r hr => ?_⟩
    obtain ⟨h1, h2, h3, h4⟩ := plainRow_facts rows cols (.str s) j hj r hr
    exact ⟨h1, by simp [h2, isSmallUint], h3, fun x => by simp [h4 x, h2]⟩
  | bool b =>
    rw [create2DArray_bool]
    refine ⟨by simp, fun r hr => ?_⟩
    obtain ⟨h1, h2, h3, h4⟩ := plainRow_facts rows cols (.bool b) j hj r hr
    exact ⟨h1, by simp [h2, isSmallUint], h3, fun x => by simp [h4 x, h2]⟩

/-- C9 (witness): the grid behaviour at `rows = 2`, `cols = 3`, integer
default `7`, cell column `1`. -/
theorem claim_C9_witness :
    (create2DArray 2 3 (.num 7)).length = 2 ∧
    ∀ r ∈ create2DArray 2 3 (.num 7),
      rowLength r = 3 ∧ isUint8Row r = isSmallUint (.num 7) ∧
      cellValue r 1 = some (.num 7) ∧
      ∀ x : ℤ, cellValue (setCell r 1 (x : ℚ)) 1 =
        some (.num (if isUint8Row r then ((x % 256 : ℤ) : ℚ) else (x : ℚ))) :=
  claim_C9_create2DArray 2 3 (.num 7) 1 (by decide)

end Create2DClaims

section UniqueClaims

variable {α : Type*} [DecidableEq α]

theorem dedupFirst_cons (x : α) (xs : List α) :
    dedupFirst (x :: xs) = x :: (dedupFirst xs).filter (fun y => y ≠ x) := rfl

theorem mem_dedupFirst : ∀ (l : List α) (x : α), x ∈ dedupFirst l ↔ x ∈ l := by
  intro l
  induction l with
  | nil => simp [dedupFirst]
  | cons y t ih =>
    intro x
    simp only [dedupFirst, List.mem_cons, List.mem_filter, ih, decide_eq_true_eq]
    by_cases hxy : x = y
    · simp [hxy]
    · simp [hxy]

theorem nodup_dedupFirst : ∀ l : List α, (dedupFirst l).Nodup := by
  intro l
  induction l with
  | nil => simp [dedupFirst]
  | cons y t ih =>
    simp only [dedupFirst, List.nodup_cons]
    refine ⟨fun hmem => ?_, ih.filter _⟩
    have := (List.mem_filter.mp hmem).2
    simp at this

theorem dedupFirst_filter (p : α → Bool) :
    ∀ l : List α, dedupFirst (l.filter p) = (dedupFirst l).filter p := by
  intro l
  induction l with
  | nil => simp [dedupFirst]
  | cons y t ih =>
    by_cases hp : p y = true
    · simp only [List.filter_cons, hp, if_true, dedupFirst, ih]
      rw [List.filter_comm]
    · have hp' : p y = false := by simpa using hp
      rw [List.filter_cons, hp', if_neg Bool.false_ne_true, ih, dedupFirst_cons,
        List.filter_cons, hp', if_neg Bool.false_ne_true, List.filter_comm]
      rw [eq_comm, List.filter_eq_self]
      intro a ha
      have hap : p a = true := (List.mem_filter.mp ha).2
      have hay : a ≠ y := fun hay => by rw [hay] at hap; exact hp hap
      simpa using hay

theorem filter_notMem_cons (seen : List α) (x : α) (t : List α) :
    t.filter (fun a => decide (a ∉ x :: seen)) =
      (t.filter (fun a => decide (a ∉ seen))).filter (fun a => decide (a ≠ x)) := by
  rw [List.filter_filter]
  refine List.filter_congr fun a _ => ?_
  by_cases hax : a = x
  · simp [hax]
  · by_cases has : a ∈ seen <;> simp [hax, has]

theorem filter_notMem_append (acc : List α) (x : α) (t : List α) :
    t.filter (fun a => decide (a ∉ acc ++ [x])) =
      (t.filter (fun a => decide (a ∉ acc))).filter (fun a => decide (a ≠ x)) := by
  rw [List.filter_filter]
  refine List.filter_congr fun a _ => ?_
  by_cases hax : a = x
  · simp [hax]
  · by_cases has : a ∈ acc <;> simp [hax, has]

theorem uniqueMapGo_spec :
    ∀ l seen : List α,
      uniqueMapGo l seen = dedupFirst (l.filter (fun x => decide (x ∉ seen))) := by
  intro l
  induction l with
  | nil => simp [uniqueMapGo, dedupFirst]
  | cons x t ih =>
    intro seen
    rw [List.filter_cons]
    by_cases hx : x ∈ seen
    · have hcond : (decide (x ∉ seen)) = false := by simpa using hx
      rw [hcond, if_neg Bool.false_ne_true]
      simp only [uniqueMapGo]
      rw [if_pos hx]
      exact ih seen
    · have hcond : (decide (x ∉ seen)) = true := by simpa using hx
      rw [hcond, if_pos rfl]
      simp only [uniqueMapGo]
      rw [if_neg hx, ih (x :: seen), dedupFirst_cons]
      congr 1
      rw [filter_notMem_cons, dedupFirst_filter]

theorem uniqueSet_foldl_spec :
    ∀ l acc : List α,
      l.foldl (fun acc x => if x ∈ acc then acc else acc ++ [x]) acc =
        acc ++ dedupFirst (l.filter (fun x => decide (x ∉ acc))) := by
  intro l
  induction l with
  | nil => simp [dedupFirst]
  | cons x t ih =>
    intro acc
    rw [List.foldl_cons, List.filter_cons]
    by_cases hx : x ∈ acc
    · have hcond : (decide (x ∉ acc)) = false := by simpa using hx
      rw [hcond, if_neg Bool.false_ne_true, if_pos hx]
      exact ih acc
    · have hcond : (decide (x ∉ acc)) = true := by simpa using hx
      rw [hcond, if_pos rfl, if_neg hx, ih (acc ++ [x]), dedupFirst_cons,
        filter_notMem_append, dedupFirst_filter]
      simp

theorem uniqueSet_eq_dedupFirst (arr : List α) : uniqueSet arr = dedupFirst arr := by
  rw [uniqueSet, uniqueSet_foldl_spec, List.nil_append]
  congr 1
  rw [show arr.filter (fun x => decide (x ∉ ([] : List α))) = arr from
    List.filter_eq_self.mpr (fun a _ => by simp)]

theorem uniqueMap_eq_dedupFirst (arr : List α) : uniqueMap arr = dedupFirst arr := by
  rw [uniqueMap, uniqueMapGo_spec]
  congr 1
  exact List.filter_eq_self.mpr (fun a _ => by simp)

/-- C10: `unique` returns each distinct element of the input exactly once,
in order of first occurrence (it equals the first-occurrence
deduplication), and the small-array `Set` branch and the large-array `Map`
branch compute the same result on every element sequence. -/
theorem claim_C10_unique (arr : List α) :
    unique arr = dedupFirst arr ∧ uniqueSet arr = uniqueMap arr ∧
    (unique arr).Nodup ∧
    ∀ x, List.count x (unique arr) = if x ∈ arr then 1 else 0 := by
  have hset := uniqueSet_eq_dedupFirst arr
  have hmap := uniqueMap_eq_dedupFirst arr
  have huniq : unique arr = dedupFirst arr := by
    unfold unique
    split <;> [exact hset; exact hmap]
  refine ⟨huniq, hset.trans hmap.symm, huniq ▸ nodup_dedupFirst arr, fun x => ?_⟩
  rw [huniq]
  by_cases hx : x ∈ arr
  · rw [if_pos hx]
    have hmem : x ∈ dedupFirst arr := (mem_dedupFirst arr x).mpr hx
    have hle := List.nodup_iff_count_le_one.mp (nodup_dedupFirst arr) x
    have hge := List.count_pos_iff.mpr hmem
    omega
  · rw [if_neg hx]
    exact List.count_eq_zero.mpr (fun h => hx ((mem_dedupFirst arr x).mp h))

end UniqueClaims

section EffectClaims

/-- C2 (counterexample): neither `getPermutations` nor `mergeRanges` is
side-effect-free: `getPermutations([1, 2])` does not leave its argument as
`[1, 2]`, and `mergeRanges([[1, 3], [2, 6]])` does not leave the caller's
pairs as `[(1, 3), (2, 6)]`. -/
theorem claim_C2_counterexample :
    (¬ getPermutationsEffect [1, 2] = [1, 2]) ∧
    ¬ (mergeRangesEffect [((1 : ℤ), (3 : ℤ)), (2, 6)]).2 = [(1, 3), (2, 6)] := by
  constructor <;> decide

/-- C2 (amended): the utility library is not side-effect-free on its
arguments: the Heap branch of `getPermutations` mutates its input array in
place, leaving `[1, 2]` as `[2, 1]`, and `mergeRanges` writes the merged
end through to the caller's pair objects, leaving the input
`[(1, 3), (2, 6)]` as `[(1, 6), (2, 6)]` while returning `[(1, 6)]`. -/
theorem claim_C2_mutation :
    getPermutationsEffect [1, 2] = [2, 1] ∧
    mergeRangesEffect [((1 : ℤ), (3 : ℤ)), (2, 6)] = ([(1, 6)], [(1, 6), (2, 6)]) := by
  constructor <;> decide

end EffectClaims

section GcdClaims

theorem mod_two_eq_zero_iff_testBit (n : ℕ) : n % 2 = 0 ↔ n.testBit 0 = false := by
  rw [Nat.testBit_zero]
  rcases Nat.mod_two_eq_zero_or_one n with h | h <;> simp [h]

theorem lor_and_one_eq_zero (a b : ℕ) :
    ((a ||| b) &&& 1 = 0) ↔ a % 2 = 0 ∧ b % 2 = 0 := by
  rw [Nat.and_one_is_mod, mod_two_eq_zero_iff_testBit, Nat.testBit_or,
    Bool.or_eq_false_iff, ← mod_two_eq_zero_iff_testBit, ← mod_two_eq_zero_iff_testBit]

theorem and_one_eq_zero (a : ℕ) : (a &&& 1 = 0) ↔ a % 2 = 0 := by
  rw [Nat.and_one_is_mod]

theorem stripCommon_mono : ∀ (f f' a b s : ℕ) (r : ℕ × ℕ × ℕ), f ≤ f' →
    stripCommon f a b s = some r → stripCommon f' a b s = some r := by
  intro f
  induction f with
  | zero => intro f' a b s r _ h; simp [stripCommon] at h
  | succ f ih =>
    intro f' a b s r hf h
    obtain ⟨f'', rfl⟩ : ∃ f'', f' = f'' + 1 := ⟨f' - 1, by omega⟩
    simp only [stripCommon] at h ⊢
    by_cases hcond : (a ||| b) &&& 1 = 0
    · rw [if_pos hcond] at h ⊢
      exact ih f'' _ _ _ _ (by omega) h
    · rwa [if_neg hcond] at h ⊢

theorem stripTwos_mono : ∀ (f f' a : ℕ) (r : ℕ), f ≤ f' →
    stripTwos f a = some r → stripTwos f' a = some r := by
  intro f
  induction f with
  | zero => intro f' a r _ h; simp [stripTwos] at h
  | succ f ih =>
    intro f' a r hf h
    obtain ⟨f'', rfl⟩ : ∃ f'', f' = f'' + 1 := ⟨f' - 1, by omega⟩
    simp only [stripTwos] at h ⊢
    by_cases hcond : a &&& 1 = 0
    · rw [if_pos hcond] at h ⊢
      exact ih f'' _ _ (by omega) h
    · rwa [if_neg hcond] at h ⊢

theorem subtractLoop_mono : ∀ (f f' a b : ℕ) (r : ℕ), f ≤ f' →
    subtractLoop f a b = some r → subtractLoop f' a b = some r := by
  intro f
  induction f with
  | zero => intro f' a b r _ h; simp [subtractLoop] at h
  | succ f ih =>
    intro f' a b r hf h
    obtain ⟨f'', rfl⟩ : ∃ f'', f' = f'' + 1 := ⟨f' - 1, by omega⟩
    simp only [subtractLoop] at h ⊢
    by_cases hb0 : b = 0
    · rwa [if_pos hb0] at h ⊢
    · rw [if_neg hb0] at h ⊢
      by_cases hbe : b &&& 1 = 0
      · rw [if_pos hbe] at h ⊢
        exact ih f'' _ _ _ (by omega) h
      · rw [if_neg hbe] at h ⊢
        by_cases hab : a > b
        · rw [if_pos hab] at h ⊢
          exact ih f'' _ _ _ (by omega) h
        · rw [if_neg hab] at h ⊢
          exact ih f'' _ _ _ (by omega) h

theorem stripCommon_zero_zero : ∀ f s, stripCommon f 0 0 s = none := by
  intro f
  induction f with
  | zero => intro s; rfl
  | succ f ih =>
    intro s
    simp only [stripCommon]
    rw [if_pos (by decide), Nat.zero_shiftRight]
    exact ih (s + 1)

theorem stripTwos_zero : ∀ f, stripTwos f 0 = none := by
  intro f
  induction f with
  | zero => rfl
  | succ f ih =>
    simp only [stripTwos]
    rw [if_pos (by decide), Nat.zero_shiftRight]
    exact ih

theorem stripCommon_fst_zero : ∀ (f b s : ℕ) (r : ℕ × ℕ × ℕ),
    stripCommon f 0 b s = some r → r.1 = 0 := by
  intro f
  induction f with
  | zero => intro b s r h; simp [stripCommon] at h
  | succ f ih =>
    intro b s r h
    simp only [stripCommon] at h
    by_cases hcond : ((0 : ℕ) ||| b) &&& 1 = 0
    · rw [if_pos hcond, Nat.zero_shiftRight] at h
      exact ih _ _ _ h
    · rw [if_neg hcond] at h
      cases h
      rfl

theorem gcdFuel_zero_left : ∀ (f : ℕ) (b : ℤ), gcdFuel f 0 b = none := by
  intro f b
  unfold gcdFuel
  simp only [Int.natAbs_zero]
  cases hsc : stripCommon f 0 b.natAbs 0 with
  | none => rfl
  | some r =>
    obtain ⟨a1, b1, k⟩ := r
    have h1 : a1 = 0 := stripCommon_fst_zero f b.natAbs 0 (a1, b1, k) hsc
    subst h1
    simp [stripTwos_zero f]

theorem stripCommon_spec (a : ℕ) : ∀ b s, 0 < a →
    ∃ f a' b' k, stripCommon f a b s = some (a', b', s + k) ∧
      a = 2 ^ k * a' ∧ b = 2 ^ k * b' ∧ ¬(a' % 2 = 0 ∧ b' % 2 = 0) := by
  induction a using Nat.strong_induction_on with
  | _ a ih =>
    intro b s ha
    by_cases hcond : a % 2 = 0 ∧ b % 2 = 0
    · have ha2 : 0 < a / 2 := by omega
      obtain ⟨f, a', b', k, hrun, hae, hbe, hex⟩ := ih (a / 2) (by omega) (b / 2) (s + 1) ha2
      refine ⟨f + 1, a', b', k + 1, ?_, ?_, ?_, hex⟩
      · simp only [stripCommon]
        rw [if_pos ((lor_and_one_eq_zero a b).mpr hcond), Nat.shiftRight_one,
          Nat.shiftRight_one, show s + (k + 1) = (s + 1) + k by omega]
        exact hrun
      · have h2 : a = 2 * (a / 2) := by omega
        rw [h2, hae, pow_succ]
        ring
      · have h2 : b = 2 * (b / 2) := by omega
        rw [h2, hbe, pow_succ]
        ring
    · refine ⟨1, a, b, 0, ?_, by simp, by simp, hcond⟩
      simp only [stripCommon]
      rw [if_neg (fun hc => hcond ((lor_and_one_eq_zero a b).mp hc))]
      simp

theorem stripTwos_spec (a : ℕ) : 0 < a →
    ∃ f a' k, stripTwos f a = some a' ∧ a = 2 ^ k * a' ∧ a' % 2 = 1 := by
  induction a using Nat.strong_induction_on with
  | _ a ih =>
    intro ha
    by_cases hcond : a % 2 = 0
    · have ha2 : 0 < a / 2 := by omega
      obtain ⟨f, a', k, hrun, hae, hodd⟩ := ih (a / 2) (by omega) ha2
      refine ⟨f + 1, a', k + 1, ?_, ?_, hodd⟩
      · simp only [stripTwos]
        rw [if_pos ((and_one_eq_zero a).mpr hcond), Nat.shiftRight_one]
        exact hrun
      · have h2 : a = 2 * (a / 2) := by omega
        rw [h2, hae, pow_succ]
        ring
    · refine ⟨1, a, 0, ?_, by simp, by omega⟩
      simp only [stripTwos]
      rw [if_neg (fun hc => hcond ((and_one_eq_zero a).mp hc))]

theorem gcd_sub_right (a b : ℕ) (h : a ≤ b) : Nat.gcd a (b - a) = Nat.gcd a b := by
  refine Nat.dvd_antisymm (Nat.dvd_gcd (Nat.gcd_dvd_left _ _) ?_)
    (Nat.dvd_gcd (Nat.gcd_dvd_left _ _) (Nat.dvd_sub' (Nat.gcd_dvd_right _ _)
      (Nat.gcd_dvd_left _ _)))
  have h1 := Nat.gcd_dvd_left a (b - a)
  have h2 := Nat.gcd_dvd_right a (b - a)
  have h3 : Nat.gcd a (b - a) ∣ (b - a) + a := Nat.dvd_add h2 h1
  rwa [Nat.sub_add_cancel h] at h3

theorem gcd_odd_half (a b : ℕ) (ha : a % 2 = 1) (hb : b % 2 = 0) :
    Nat.gcd a (b / 2) = Nat.gcd a b := by
  have hcop : Nat.Coprime 2 a := Nat.coprime_two_left.mpr (Nat.odd_iff.mpr ha)
  have hb2 : b = 2 * (b / 2) := by omega
  conv_rhs => rw [hb2]
  rw [Nat.gcd_comm a (2 * (b / 2)), Nat.Coprime.gcd_mul_left_cancel _ hcop,
    Nat.gcd_comm]

theorem subtractLoop_spec : ∀ (n a b : ℕ), a + b ≤ n → a % 2 = 1 →
    ∃ f, subtractLoop f a b = some (Nat.gcd a b) := by
  intro n
  induction n with
  | zero => intro a b hab ha; omega
  | succ n ih =>
    intro a b hab ha
    by_cases hb0 : b = 0
    · subst hb0
      refine ⟨1, ?_⟩
      simp [subtractLoop]
    · by_cases hbe : b % 2 = 0
      · obtain ⟨f, hf⟩ := ih a (b / 2) (by omega) ha
        refine ⟨f + 1, ?_⟩
        simp only [subtractLoop]
        rw [if_neg hb0, if_pos ((and_one_eq_zero b).mpr hbe), Nat.shiftRight_one, hf,
          gcd_odd_half a b ha hbe]
      · by_cases hab2 : a > b
        · obtain ⟨f, hf⟩ := ih b (a - b) (by omega) (by omega)
          refine ⟨f + 1, ?_⟩
          simp only [subtractLoop]
          rw [if_neg hb0, if_neg (fun hc => hbe ((and_one_eq_zero b).mp hc)),
            if_pos hab2, hf, gcd_sub_right b a (by omega), Nat.gcd_comm]
        · obtain ⟨f, hf⟩ := ih a (b - a) (by omega) ha
          refine ⟨f + 1, ?_⟩
          simp only [subtractLoop]
          rw [if_neg hb0, if_neg (fun hc => hbe ((and_one_eq_zero b).mp hc)),
            if_neg hab2, hf, gcd_sub_right a b (by omega)]

theorem gcdFuel_eq_gcd (a b : ℤ) (ha : a ≠ 0) :
    ∃ f, gcdFuel f a b = some ((Int.gcd a b : ℕ) : ℤ) := by
  have ha0 : 0 < a.natAbs := Int.natAbs_pos.mpr ha
  obtain ⟨f1, a1, b1, k, hrun1, hae, hbe, hex⟩ := stripCommon_spec a.natAbs b.natAbs 0 ha0
  rw [zero_add] at hrun1
  have ha1 : 0 < a1 := by
    rcases Nat.eq_zero_or_pos a1 with h | h
    · rw [h, mul_zero] at hae; omega
    · exact h
  obtain ⟨f2, a2, j, hrun2, hae2, hodd⟩ := stripTwos_spec a1 ha1
  obtain ⟨f3, hrun3⟩ := subtractLoop_spec (a2 + b1) a2 b1 le_rfl hodd
  have hg12 : Nat.gcd a1 b1 = Nat.gcd a2 b1 := by
    by_cases hcase : a1 % 2 = 0
    · have hb1 : b1 % 2 = 1 := by
        rcases Nat.mod_two_eq_zero_or_one b1 with h | h
        · exact absurd ⟨hcase, h⟩ hex
        · exact h
      have hcop : Nat.Coprime (2 ^ j) b1 :=
        Nat.Coprime.pow_left j (Nat.coprime_two_left.mpr (Nat.odd_iff.mpr hb1))
      rw [hae2, Nat.Coprime.gcd_mul_left_cancel _ hcop]
    · have hj : j = 0 := by
        by_contra hj0
        have h2 : 2 ∣ a1 := by
          rw [hae2]
          exact Dvd.dvd.mul_right (dvd_pow_self 2 hj0) a2
        omega
      rw [hae2, hj, pow_zero, one_mul]
  have hmain : Nat.gcd a.natAbs b.natAbs = 2 ^ k * Nat.gcd a2 b1 := by
    rw [hae, hbe, Nat.gcd_mul_left, hg12]
  refine ⟨max f1 (max f2 f3), ?_⟩
  unfold gcdFuel
  rw [stripCommon_mono f1 _ _ _ _ _ (le_max_left _ _) hrun1]
  dsimp only
  rw [stripTwos_mono f2 _ _ _ (le_trans (le_max_left _ _) (le_max_right _ _)) hrun2]
  dsimp only
  rw [subtractLoop_mono f3 _ _ _ _ (le_trans (le_max_right _ _) (le_max_right _ _)) hrun3]
  dsimp only
  have : (Nat.gcd a2 b1) <<< k = Int.gcd a b := by
    rw [Nat.shiftLeft_eq]
    show Nat.gcd a2 b1 * 2 ^ k = Nat.gcd a.natAbs b.natAbs
    rw [hmain]
    ring
  rw [this]

/-- C1 (counterexample): `gcd(0, 0)` does not return the sentinel 0: with
both arguments 0 the first loop's condition `((a | b) & 1) === 0` never
becomes false, so the call never returns, whatever the fuel. -/
theorem claim_C1_counterexample : ¬ ∃ (f : ℕ) (g : ℤ), gcdFuel f 0 0 = some g := by
  rintro ⟨f, g, h⟩
  rw [gcdFuel_zero_left f 0] at h
  cases h

/-- C1 (amended): for every pair of integers with `a ≠ 0` (and both
absolute values below `2 ^ 31`, the domain on which the JS 32-bit bitwise
operators agree with integer arithmetic), `gcd(a, b)` terminates and
returns the largest positive integer dividing both `|a|` and `|b|`; but
when `a = 0` — in particular `gcd(0, 0)` — the implementation loops
forever instead of returning a sentinel. -/
theorem claim_C1_gcd_correct (a b : ℤ) (ha : a ≠ 0)
    (hA : a.natAbs < 2 ^ 31) (hB : b.natAbs < 2 ^ 31) :
    ∃ g : ℤ, (∃ f, gcdFuel f a b = some g) ∧ 0 < g ∧ g ∣ a ∧ g ∣ b ∧
      ∀ d : ℤ, 0 < d → d ∣ a → d ∣ b → d ≤ g := by
  refine ⟨((Int.gcd a b : ℕ) : ℤ), gcdFuel_eq_gcd a b ha, ?_, Int.gcd_dvd_left,
    Int.gcd_dvd_right, fun d _ hda hdb => ?_⟩
  · exact_mod_cast Int.gcd_pos_iff.mpr (Or.inl ha)
  · exact Int.le_of_dvd (by exact_mod_cast Int.gcd_pos_iff.mpr (Or.inl ha))
      (Int.dvd_gcd hda hdb)

/-- C1 (witness): the amended claim at `a = 48`, `b = 18`. -/
theorem claim_C1_witness :
    ∃ g : ℤ, (∃ f, gcdFuel f 48 18 = some g) ∧ 0 < g ∧ g ∣ 48 ∧ g ∣ 18 ∧
      ∀ d : ℤ, 0 < d → d ∣ 48 → d ∣ 18 → d ≤ g :=
  claim_C1_gcd_correct 48 18 (by decide) (by decide) (by decide)

/-- C8 (counterexample): commutativity fails when exactly one argument is
zero: `gcd(6, 0)` returns 6, but `gcd(0, 6)` never returns (the loop
stripping factors of two from `a = 0` cannot exit). -/
theorem claim_C8_counterexample :
    gcdFuel 64 6 0 = some 6 ∧ ¬ ∃ (f : ℕ) (g : ℤ), gcdFuel f 0 6 = some g := by
  refine ⟨by decide, ?_⟩
  rintro ⟨f, g, h⟩
  rw [gcdFuel_zero_left f 6] at h
  cases h

/-- C8 (amended): for all integers `a`, `b` that are both nonzero and have
absolute value below `2 ^ 31` (the domain on which the JS 32-bit bitwise
operators of the source agree with integer arithmetic), `gcd(a, b)` and
`gcd(b, a)` terminate with the same value; when exactly one argument is
zero the two orders differ — `gcd(a, 0)` returns `|a|` while `gcd(0, a)`
loops forever. -/
theorem claim_C8_gcd_comm (a b : ℤ) (ha : a ≠ 0) (hb : b ≠ 0)
    (hA : a.natAbs < 2 ^ 31) (hB : b.natAbs < 2 ^ 31) :
    ∃ g : ℤ, (∃ f, gcdFuel f a b = some g) ∧ ∃ f, gcdFuel f b a = some g := by
  refine ⟨((Int.gcd a b : ℕ) : ℤ), gcdFuel_eq_gcd a b ha, ?_⟩
  rw [Int.gcd_comm]
  exact gcdFuel_eq_gcd b a hb

/-- C8 (witness): the amended claim at `a = 48`, `b = 18`. -/
theorem claim_C8_witness :
    ∃ g : ℤ, (∃ f, gcdFuel f 48 18 = some g) ∧ ∃ f, gcdFuel f 18 48 = some g :=
  claim_C8_gcd_comm 48 18 (by decide) (by decide) (by decide) (by decide)

/-- C6: for nonzero `a`, `b` (inside the faithfulness domain: absolute
values below `2 ^ 31` for the bitwise gcd, product below `2 ^ 53` so the
JS float product is exact), `lcm(a, b) * gcd(a, b) = |a * b|`. -/
theorem claim_C6_lcm_gcd (a b : ℤ) (ha : a ≠ 0) (hb : b ≠ 0)
    (hA : a.natAbs < 2 ^ 31) (hB : b.natAbs < 2 ^ 31)
    (hprod : (a * b).natAbs < 2 ^ 53) :
    ∃ f l g, lcmFuel f a b = some l ∧ gcdFuel f a b = some g ∧
      l * g = |a * b| := by
  obtain ⟨f, hf⟩ := gcdFuel_eq_gcd a b ha
  refine ⟨f, _, _, by rw [lcmFuel, hf]; rfl, hf, ?_⟩
  have hdvd : ((Int.gcd a b : ℕ) : ℤ) ∣ |a * b| :=
    (dvd_abs _ _).mpr (Dvd.dvd.mul_right Int.gcd_dvd_left b)
  have habs : ((a * b).natAbs : ℤ) = |a * b| := (Int.abs_eq_natAbs _).symm
  rw [habs]
  exact Int.ediv_mul_cancel hdvd

/-- C6 (witness): the algebraic relation at `a = 4`, `b = 6`. -/
theorem claim_C6_witness :
    ∃ f l g, lcmFuel f 4 6 = some l ∧ gcdFuel f 4 6 = some g ∧
      l * g = |(4 : ℤ) * 6| :=
  claim_C6_lcm_gcd 4 6 (by decide) (by decide) (by decide) (by decide) (by decide)

end GcdClaims

section RangeClaims

theorem covers_nil (p : ℤ) : ¬ covers [] p := by simp [covers]

theorem covers_cons' (s e : ℤ) (l : List (ℤ × ℤ)) (p : ℤ) :
    covers ((s, e) :: l) p ↔ (s ≤ p ∧ p ≤ e) ∨ covers l p := by
  simp [covers, List.mem_cons, or_and_right, exists_or]

theorem covers_perm {l l' : List (ℤ × ℤ)} (h : l.Perm l') (p : ℤ) :
    covers l p ↔ covers l' p := by
  unfold covers
  constructor
  · rintro ⟨r, hr, hp⟩
    exact ⟨r, h.mem_iff.mp hr, hp⟩
  · rintro ⟨r, hr, hp⟩
    exact ⟨r, h.mem_iff.mpr hr, hp⟩

theorem canonical_nil : Canonical ([] : List (ℤ × ℤ)) := ⟨by simp, trivial⟩

theorem canonical_tail {r : ℤ × ℤ} {t : List (ℤ × ℤ)} (h : Canonical (r :: t)) :
    Canonical t :=
  ⟨fun x hx => h.1 x (List.mem_cons_of_mem r hx), h.2.tail⟩

theorem canonical_tail_gt : ∀ {t : List (ℤ × ℤ)} {s e : ℤ},
    Canonical ((s, e) :: t) → ∀ r ∈ t, e + 1 < r.1 := by
  intro t
  induction t with
  | nil => intro s e _ r hr; simp at hr
  | cons r' t' ih =>
    intro s e h r hr
    obtain ⟨s', e'⟩ := r'
    have h1 : e + 1 < s' := (List.chain'_cons.mp h.2).1
    have hwf' : s' ≤ e' := h.1 (s', e') (by simp)
    rcases List.mem_cons.mp hr with rfl | hr'
    · exact h1
    · have h2 := ih (canonical_tail h) r hr'
      omega

theorem canonical_min {t : List (ℤ × ℤ)} {s e p : ℤ} (h : Canonical ((s, e) :: t))
    (hp : covers ((s, e) :: t) p) : s ≤ p := by
  rcases (covers_cons' s e t p).mp hp with ⟨h1, _⟩ | ⟨r, hr, h1, h2⟩
  · exact h1
  · have h3 := canonical_tail_gt h r hr
    have h4 : s ≤ e := h.1 (s, e) (by simp)
    omega

theorem canonical_not_covers_succ {t : List (ℤ × ℤ)} {s e : ℤ}
    (h : Canonical ((s, e) :: t)) : ¬ covers ((s, e) :: t) (e + 1) := by
  intro hc
  rcases (covers_cons' s e t (e + 1)).mp hc with ⟨_, h2⟩ | ⟨r, hr, h1, h2⟩
  · omega
  · have h3 := canonical_tail_gt h r hr
    omega

theorem canonical_covers_tail {t : List (ℤ × ℤ)} {s e p : ℤ}
    (h : Canonical ((s, e) :: t)) (hp : e < p) :
    covers ((s, e) :: t) p ↔ covers t p := by
  rw [covers_cons' s e t p]
  constructor
  · rintro (⟨h1, h2⟩ | h2)
    · omega
    · exact h2
  · exact Or.inr

theorem canonical_ext : ∀ l₁ l₂ : List (ℤ × ℤ), Canonical l₁ → Canonical l₂ →
    (∀ p, covers l₁ p ↔ covers l₂ p) → l₁ = l₂ := by
  intro l₁
  induction l₁ with
  | nil =>
    intro l₂ _ h2 hcov
    cases l₂ with
    | nil => rfl
    | cons r t =>
      obtain ⟨s, e⟩ := r
      exfalso
      have hc : covers ((s, e) :: t) s :=
        (covers_cons' s e t s).mpr (Or.inl ⟨le_refl s, h2.1 (s, e) (by simp)⟩)
      exact (covers_nil s) ((hcov s).mpr hc)
  | cons r₁ t₁ ih =>
    intro l₂ h1 h2 hcov
    obtain ⟨s₁, e₁⟩ := r₁
    cases l₂ with
    | nil =>
      exfalso
      have hc : covers ((s₁, e₁) :: t₁) s₁ :=
        (covers_cons' s₁ e₁ t₁ s₁).mpr (Or.inl ⟨le_refl s₁, h1.1 (s₁, e₁) (by simp)⟩)
      exact (covers_nil s₁) ((hcov s₁).mp hc)
    | cons r₂ t₂ =>
      obtain ⟨s₂, e₂⟩ := r₂
      have hwf₁ : s₁ ≤ e₁ := h1.1 (s₁, e₁) (by simp)
      have hwf₂ : s₂ ≤ e₂ := h2.1 (s₂, e₂) (by simp)
      have hc₁ : covers ((s₁, e₁) :: t₁) s₁ :=
        (covers_cons' s₁ e₁ t₁ s₁).mpr (Or.inl ⟨le_refl s₁, hwf₁⟩)
      have hc₂ : covers ((s₂, e₂) :: t₂) s₂ :=
        (covers_cons' s₂ e₂ t₂ s₂).mpr (Or.inl ⟨le_refl s₂, hwf₂⟩)
      have hs12 : s₂ ≤ s₁ := canonical_min h2 ((hcov s₁).mp hc₁)
      have hs21 : s₁ ≤ s₂ := canonical_min h1 ((hcov s₂).mpr hc₂)
      have he1 : ¬ e₁ < e₂ := by
        intro hlt
        apply canonical_not_covers_succ h1
        apply (hcov (e₁ + 1)).mpr
        exact (covers_cons' s₂ e₂ t₂ (e₁ + 1)).mpr (Or.inl ⟨by omega, by omega⟩)
      have he2 : ¬ e₂ < e₁ := by
        intro hlt
        apply canonical_not_covers_succ h2
        apply (hcov (e₂ + 1)).mp
        exact (covers_cons' s₁ e₁ t₁ (e₂ + 1)).mpr (Or.inl ⟨by omega, by omega⟩)
      have hs : s₁ = s₂ := le_antisymm hs21 hs12
      have he : e₁ = e₂ := by omega
      have htails : ∀ p, covers t₁ p ↔ covers t₂ p := by
        intro p
        by_cases hp : e₁ < p
        · rw [← canonical_covers_tail h1 hp, hcov p,
            canonical_covers_tail h2 (by omega)]
        · constructor
          · rintro ⟨r, hr, hr1, hr2⟩
            have h3 := canonical_tail_gt h1 r hr
            omega
          · rintro ⟨r, hr, hr1, hr2⟩
            have h3 := canonical_tail_gt h2 r hr
            omega
      rw [hs, he, ih t₂ (canonical_tail h1) (canonical_tail h2) htails]

theorem getD_mem_of_lt (l : List (ℤ × ℤ)) (i : ℕ) (h : i < l.length) :
    l.getD i (0, 0) ∈ l := by
  rw [List.getD_eq_getElem l (0, 0) h]
  exact List.getElem_mem h

theorem get_eq_getD (l : List (ℤ × ℤ)) (i : Fin l.length) :
    l.get i = l.getD (i : ℕ) (0, 0) := by
  rw [List.getD_eq_get l (0, 0) i.isLt, Fin.eta]

theorem canonical_gap (l : List (ℤ × ℤ)) (hcan : Canonical l) :
    ∀ (j i : ℕ), i < j → j < l.length →
      (l.getD i (0, 0)).2 + 1 < (l.getD j (0, 0)).1 := by
  intro j
  induction j with
  | zero => intro i hij _; omega
  | succ j ihj =>
    intro i hij hj
    have hstep : (l.getD j (0, 0)).2 + 1 < (l.getD (j + 1) (0, 0)).1 := by
      have h0 := List.chain'_iff_get.mp hcan.2 j (by omega)
      rw [List.getD_eq_get l (0, 0) (show j < l.length by omega),
        List.getD_eq_get l (0, 0) hj]
      exact h0
    by_cases hij' : i = j
    · rw [hij']
      exact hstep
    · have h1 := ihj i (by omega) (by omega)
      have hwfj : (l.getD j (0, 0)).1 ≤ (l.getD j (0, 0)).2 :=
        hcan.1 _ (getD_mem_of_lt l j (by omega))
      omega

theorem canonical_not_covers_succD (l : List (ℤ × ℤ)) (hcan : Canonical l)
    (i : ℕ) (hi : i < l.length) : ¬ covers l ((l.getD i (0, 0)).2 + 1) := by
  rintro ⟨r, hr, hr1, hr2⟩
  obtain ⟨k, hk⟩ := List.mem_iff_get.mp hr
  have hrD : l.getD (k : ℕ) (0, 0) = r := by
    rw [List.getD_eq_get l (0, 0) k.isLt, Fin.eta]
    exact hk
  have hwfi : (l.getD i (0, 0)).1 ≤ (l.getD i (0, 0)).2 :=
    hcan.1 _ (getD_mem_of_lt l i hi)
  rw [← hrD] at hr1 hr2
  rcases lt_trichotomy (k : ℕ) i with h | h | h
  · have hgap := canonical_gap l hcan i (k : ℕ) h hi
    omega
  · rw [h] at hr1 hr2
    omega
  · have hgap := canonical_gap l hcan (k : ℕ) i h k.isLt
    omega

theorem canonical_minimal (l : List (ℤ × ℤ)) (hcan : Canonical l)
    (other : List (ℤ × ℤ)) (hcov : ∀ p, covers other p ↔ covers l p) :
    l.length ≤ other.length := by
  have hpick : ∀ i : Fin l.length, ∃ n : Fin other.length,
      (other.getD (n : ℕ) (0, 0)).1 ≤ (l.getD (i : ℕ) (0, 0)).1 ∧
        (l.getD (i : ℕ) (0, 0)).1 ≤ (other.getD (n : ℕ) (0, 0)).2 := by
    intro i
    have hci : covers l (l.getD (i : ℕ) (0, 0)).1 :=
      ⟨l.getD (i : ℕ) (0, 0), getD_mem_of_lt l (i : ℕ) i.isLt, le_refl _,
        hcan.1 _ (getD_mem_of_lt l (i : ℕ) i.isLt)⟩
    obtain ⟨r, hr, h1, h2⟩ := (hcov _).mpr hci
    obtain ⟨n, hn⟩ := List.mem_iff_get.mp hr
    have hrD : other.getD (n : ℕ) (0, 0) = r := by
      rw [List.getD_eq_get other (0, 0) n.isLt, Fin.eta]
      exact hn
    exact ⟨n, by rw [hrD]; exact h1, by rw [hrD]; exact h2⟩
  choose f hf1 hf2 using hpick
  have key : ∀ i j : Fin l.length, (i : ℕ) < (j : ℕ) → f i = f j → False := by
    intro i j hlt hfeq
    have h1 := hf1 i
    have h2 := hf2 i
    have h3 := hf1 j
    have h4 := hf2 j
    rw [hfeq] at h1 h2
    have hgap := canonical_gap l hcan (j : ℕ) (i : ℕ) hlt j.isLt
    have hwfi : (l.getD (i : ℕ) (0, 0)).1 ≤ (l.getD (i : ℕ) (0, 0)).2 :=
      hcan.1 _ (getD_mem_of_lt l (i : ℕ) i.isLt)
    have hcovg : covers other ((l.getD (i : ℕ) (0, 0)).2 + 1) :=
      ⟨other.getD ((f j : ℕ)) (0, 0), getD_mem_of_lt other _ (f j).isLt,
        by omega, by omega⟩
    exact canonical_not_covers_succD l hcan (i : ℕ) i.isLt ((hcov _).mp hcovg)
  have hinj : Function.Injective f := by
    intro i j hij
    rcases lt_trichotomy (i : ℕ) (j : ℕ) with h | h | h
    · exact absurd hij (fun hc => key i j h hc)
    · exact Fin.ext h
    · exact absurd hij.symm (fun hc => key j i h hc)
  calc l.length = Fintype.card (Fin l.length) := (Fintype.card_fin _).symm
    _ ≤ Fintype.card (Fin other.length) := Fintype.card_le_of_injective f hinj
    _ = other.length := Fintype.card_fin _

theorem mergeLoop_nil (last : ℤ × ℤ) : mergeLoop last [] = [last] := rfl

theorem mergeLoop_cons (ls le s e : ℤ) (rest : List (ℤ × ℤ)) :
    mergeLoop (ls, le) ((s, e) :: rest) =
      if s ≤ le + 1 then mergeLoop (ls, max le e) rest
      else (ls, le) :: mergeLoop (s, e) rest := rfl

theorem mergeLoop_spec : ∀ (rest : List (ℤ × ℤ)) (ls le : ℤ), ls ≤ le →
    (∀ r ∈ rest, r.1 ≤ r.2) → rest.Sorted startLE → (∀ r ∈ rest, ls ≤ r.1) →
    ∃ E tail, mergeLoop (ls, le) rest = (ls, E) :: tail ∧ le ≤ E ∧
      Canonical ((ls, E) :: tail) ∧
      ∀ p, covers ((ls, E) :: tail) p ↔ ((ls ≤ p ∧ p ≤ le) ∨ covers rest p) := by
  intro rest
  induction rest with
  | nil =>
    intro ls le hle _ _ _
    refine ⟨le, [], rfl, le_refl _, ⟨?_, List.chain'_singleton _⟩, fun p => ?_⟩
    · intro r hr
      simp only [List.mem_singleton] at hr
      rw [hr]
      exact hle
    · rw [covers_cons' ls le [] p]
  | cons hd rest' ih =>
    intro ls le hle hwf hsort hstart
    obtain ⟨s, e⟩ := hd
    have hwf_se : s ≤ e := hwf (s, e) (by simp)
    have hwf' : ∀ r ∈ rest', r.1 ≤ r.2 := fun r hr => hwf r (by simp [hr])
    have hsort' : rest'.Sorted startLE := (List.sorted_cons.mp hsort).2
    have hhd : ∀ r ∈ rest', s ≤ r.1 := fun r hr => (List.sorted_cons.mp hsort).1 r hr
    have hls_s : ls ≤ s := hstart (s, e) (by simp)
    rw [mergeLoop_cons]
    by_cases hcase : s ≤ le + 1
    · rw [if_pos hcase]
      have hm1 : le ≤ max le e := le_max_left le e
      have hm2 : e ≤ max le e := le_max_right le e
      have hm3 : max le e = le ∨ max le e = e := max_choice le e
      obtain ⟨E, tail, heq, hleE, hcan, hcov⟩ :=
        ih ls (max le e) (le_trans hle hm1) hwf' hsort'
          (fun r hr => le_trans hls_s (hhd r hr))
      refine ⟨E, tail, heq, le_trans hm1 hleE, hcan, fun p => ?_⟩
      rw [hcov p, covers_cons' s e rest' p]
      constructor
      · rintro (⟨hp1, hp2⟩ | hc)
        · by_cases hple : p ≤ le
          · exact Or.inl ⟨hp1, hple⟩
          · exact Or.inr (Or.inl ⟨by omega, by omega⟩)
        · exact Or.inr (Or.inr hc)
      · rintro (⟨hp1, hp2⟩ | ⟨hp1, hp2⟩ | hc)
        · exact Or.inl ⟨hp1, by omega⟩
        · exact Or.inl ⟨by omega, by omega⟩
        · exact Or.inr hc
    · rw [if_neg hcase]
      obtain ⟨E', tail', heq, hleE', hcan', hcov'⟩ := ih s e hwf_se hwf' hsort' hhd
      rw [heq]
      refine ⟨le, (s, E') :: tail', rfl, le_refl _, ⟨?_, ?_⟩, fun p => ?_⟩
      · intro r hr
        rcases List.mem_cons.mp hr with rfl | hr'
        · exact hle
        · exact hcan'.1 r hr'
      · exact List.Chain'.cons (show le + 1 < s by omega) hcan'.2
      · rw [covers_cons' ls le ((s, E') :: tail') p, hcov' p,
          covers_cons' s e rest' p]

theorem mergeRanges_spec (ranges : List (ℤ × ℤ)) (hwf : ∀ r ∈ ranges, r.1 ≤ r.2) :
    Canonical (mergeRanges ranges) ∧
    ∀ p, covers (mergeRanges ranges) p ↔ covers ranges p := by
  have hperm : (List.insertionSort startLE ranges).Perm ranges :=
    List.perm_insertionSort _ _
  have hsorted : (List.insertionSort startLE ranges).Sorted startLE :=
    List.sorted_insertionSort _ _
  cases hsc : List.insertionSort startLE ranges with
  | nil =>
    have hmr : mergeRanges ranges = [] := by
      unfold mergeRanges
      rw [hsc]
    rw [hsc] at hperm
    have hnil : ranges = [] := hperm.symm.eq_nil
    rw [hmr, hnil]
    exact ⟨canonical_nil, fun p => Iff.rfl⟩
  | cons r0 rest =>
    obtain ⟨ls, le⟩ := r0
    have hmr : mergeRanges ranges = mergeLoop (ls, le) rest := by
      unfold mergeRanges
      rw [hsc]
    rw [hsc] at hperm hsorted
    have hwfs : ∀ r ∈ (ls, le) :: rest, r.1 ≤ r.2 := fun r hr => hwf r (hperm.subset hr)
    have hle : ls ≤ le := hwfs (ls, le) (by simp)
    obtain ⟨E, tail, heq, hleE, hcan, hcov⟩ :=
      mergeLoop_spec rest ls le hle (fun r hr => hwfs r (by simp [hr]))
        (List.sorted_cons.mp hsorted).2 (fun r hr => (List.sorted_cons.mp hsorted).1 r hr)
    rw [hmr, heq]
    refine ⟨hcan, fun p => ?_⟩
    rw [hcov p, ← covers_cons' ls le rest p]
    exact covers_perm hperm p

/-- C5: on well-formed closed intervals (`start ≤ end`), `mergeRanges`
returns a canonical merge: nonempty intervals pairwise separated by a gap
of at least 2 (so nothing mergeable remains), sorted strictly ascending by
start, covering exactly the integer points of the input; it is minimal (no
list of intervals covering the same points is shorter), and the result is
the same for every ordering of the input. -/
theorem claim_C5_mergeRanges (ranges : List (ℤ × ℤ))
    (hwf : ∀ r ∈ ranges, r.1 ≤ r.2) :
    Canonical (mergeRanges ranges) ∧
    (mergeRanges ranges).Pairwise (fun r r' => r.1 < r'.1) ∧
    (∀ p, covers (mergeRanges ranges) p ↔ covers ranges p) ∧
    (∀ other : List (ℤ × ℤ), (∀ p, covers other p ↔ covers ranges p) →
      (mergeRanges ranges).length ≤ other.length) ∧
    ∀ ranges' : List (ℤ × ℤ), ranges'.Perm ranges →
      mergeRanges ranges' = mergeRanges ranges := by
  obtain ⟨hcan, hcov⟩ := mergeRanges_spec ranges hwf
  refine ⟨hcan, ?_, hcov, fun other hother => ?_, fun ranges' hperm => ?_⟩
  · rw [List.pairwise_iff_get]
    intro i j hij
    have hgap := canonical_gap _ hcan (j : ℕ) (i : ℕ) hij j.isLt
    have hwfi : ((mergeRanges ranges).getD (i : ℕ) (0, 0)).1 ≤
        ((mergeRanges ranges).getD (i : ℕ) (0, 0)).2 :=
      hcan.1 _ (getD_mem_of_lt _ (i : ℕ) i.isLt)
    rw [get_eq_getD, get_eq_getD]
    omega
  · exact canonical_minimal _ hcan other (fun p => (hother p).trans (hcov p).symm)
  · have hwf' : ∀ r ∈ ranges', r.1 ≤ r.2 := fun r hr => hwf r (hperm.subset hr)
    obtain ⟨hcan', hcov'⟩ := mergeRanges_spec ranges' hwf'
    exact canonical_ext _ _ hcan' hcan
      (fun p => (hcov' p).trans ((covers_perm hperm p).trans (hcov p).symm))

/-- C5 (witness): the merge behaviour at the documentation's example input
`[[1,3], [2,6], [8,10], [15,18]]`. -/
theorem claim_C5_witness :
    Canonical (mergeRanges [(1, 3), (2, 6), (8, 10), (15, 18)]) ∧
    (mergeRanges [(1, 3), (2, 6), (8, 10), (15, 18)]).Pairwise
      (fun r r' => r.1 < r'.1) ∧
    (∀ p, covers (mergeRanges [(1, 3), (2, 6), (8, 10), (15, 18)]) p ↔
      covers [(1, 3), (2, 6), (8, 10), (15, 18)] p) ∧
    (∀ other : List (ℤ × ℤ),
      (∀ p, covers other p ↔ covers [(1, 3), (2, 6), (8, 10), (15, 18)] p) →
      (mergeRanges [(1, 3), (2, 6), (8, 10), (15, 18)]).length ≤ other.length) ∧
    ∀ ranges' : List (ℤ × ℤ), ranges'.Perm [(1, 3), (2, 6), (8, 10), (15, 18)] →
      mergeRanges ranges' = mergeRanges [(1, 3), (2, 6), (8, 10), (15, 18)] :=
  claim_C5_mergeRanges [(1, 3), (2, 6), (8, 10), (15, 18)] (by decide)

end RangeClaims

section PermLemmas

variable {α : Type*} {β : Type*}

theorem swapL_length (l : List α) (i k : ℕ) : (swapL l i k).length = l.length := by
  unfold swapL
  rcases h1 : l[i]? with _ | x <;> rcases h2 : l[k]? with _ | y <;> simp

theorem cons_set_perm : ∀ (t : List α) (j : ℕ) (x y : α), t[j]? = some y →
    (y :: t.set j x).Perm (x :: t) := by
  intro t
  induction t with
  | nil => intro j x y h; simp at h
  | cons b t' ih =>
    intro j x y h
    cases j with
    | zero =>
      simp only [List.getElem?_cons_zero, Option.some.injEq] at h
      subst h
      exact List.Perm.swap x b t'
    | succ j' =>
      simp only [List.getElem?_cons_succ] at h
      show (y :: b :: t'.set j' x).Perm (x :: b :: t')
      exact (List.Perm.swap b y _).trans
        ((List.Perm.cons b (ih j' x y h)).trans (List.Perm.swap x b t'))

theorem set_set_perm : ∀ (l : List α) (i k : ℕ) (x y : α),
    l[i]? = some x → l[k]? = some y → ((l.set i y).set k x).Perm l := by
  intro l
  induction l with
  | nil => intro i k x y h1 _; simp at h1
  | cons a t ih =>
    intro i k x y h1 h2
    cases i with
    | zero =>
      simp only [List.getElem?_cons_zero, Option.some.injEq] at h1
      subst h1
      cases k with
      | zero =>
        simp only [List.getElem?_cons_zero, Option.some.injEq] at h2
        subst h2
        exact List.Perm.refl _
      | succ k' =>
        simp only [List.getElem?_cons_succ] at h2
        exact cons_set_perm t k' a y h2
    | succ i' =>
      simp only [List.getElem?_cons_succ] at h1
      cases k with
      | zero =>
        simp only [List.getElem?_cons_zero, Option.some.injEq] at h2
        subst h2
        exact cons_set_perm t i' a x h1
      | succ k' =>
        simp only [List.getElem?_cons_succ] at h2
        exact List.Perm.cons a (ih i' k' x y h1 h2)

theorem swapL_perm (l : List α) (i k : ℕ) : (swapL l i k).Perm l := by
  unfold swapL
  rcases h1 : l[i]? with _ | x <;> rcases h2 : l[k]? with _ | y
  · exact List.Perm.refl l
  · exact List.Perm.refl l
  · exact List.Perm.refl l
  · exact set_set_perm l i k x y h1 h2

theorem swapL_map (f : α → β) (l : List α) (i k : ℕ) :
    swapL (l.map f) i k = (swapL l i k).map f := by
  simp only [swapL, List.getElem?_map]
  rcases h1 : l[i]? with _ | x <;> rcases h2 : l[k]? with _ | y <;>
    simp [List.map_set]

theorem swapL_append (l₁ l₂ : List α) (i k : ℕ) (hi : i < l₁.length)
    (hk : k < l₁.length) : swapL (l₁ ++ l₂) i k = swapL l₁ i k ++ l₂ := by
  simp only [swapL, List.getElem?_append, if_pos hi, if_pos hk]
  rcases h1 : l₁[i]? with _ | x <;> rcases h2 : l₁[k]? with _ | y
  · rfl
  · rfl
  · rfl
  · dsimp only
    rw [List.set_append, if_pos hi, List.set_append,
      if_pos (by simpa using hk)]

theorem heapBlock_succ (m : ℕ) (arr : List α) :
    heapBlock (m + 1) arr =
      (List.range m).foldl
        (fun acc t =>
          let a' := swapL acc.2 m (if m % 2 = 1 then t else 0)
          let p := heapBlock m a'
          (acc.1 ++ (a' :: p.1), p.2))
        (heapBlock m arr) := rfl

theorem heapBlockFin_succ (m : ℕ) (arr : List α) :
    heapBlockFin (m + 1) arr =
      (List.range m).foldl
        (fun a t => heapBlockFin m (swapL a m (if m % 2 = 1 then t else 0)))
        (heapBlockFin m arr) := rfl

theorem hb_fin : ∀ (m : ℕ) (arr : List α), (heapBlock m arr).2 = heapBlockFin m arr := by
  intro m
  induction m with
  | zero => intro arr; rfl
  | succ m ih =>
    intro arr
    rw [heapBlock_succ, heapBlockFin_succ]
    have haux : ∀ (ts : List ℕ) (acc : List (List α) × List α),
        ((ts.foldl
          (fun acc t =>
            let a' := swapL acc.2 m (if m % 2 = 1 then t else 0)
            let p := heapBlock m a'
            (acc.1 ++ (a' :: p.1), p.2)) acc).2) =
        ts.foldl (fun a t => heapBlockFin m (swapL a m (if m % 2 = 1 then t else 0)))
          acc.2 := by
      intro ts
      induction ts with
      | nil => intro acc; rfl
      | cons t ts iht =>
        intro acc
        rw [List.foldl_cons, List.foldl_cons, iht]
        simp only [ih]
    rw [haux, ih]

theorem hbFin_perm : ∀ (m : ℕ) (a : List α), (heapBlockFin m a).Perm a := by
  intro m
  induction m with
  | zero => intro a; exact List.Perm.refl a
  | succ m ih =>
    intro a
    rw [heapBlockFin_succ]
    have haux : ∀ (ts : List ℕ) (b : List α),
        ((ts.foldl (fun a t => heapBlockFin m (swapL a m (if m % 2 = 1 then t else 0)))
          b)).Perm b := by
      intro ts
      induction ts with
      | nil => intro b; exact List.Perm.refl b
      | cons t ts iht =>
        intro b
        rw [List.foldl_cons]
        exact (iht _).trans ((ih _).trans (swapL_perm b m _))
    exact (haux _ _).trans (ih a)

theorem hbFin_length (m : ℕ) (a : List α) : (heapBlockFin m a).length = a.length :=
  (hbFin_perm m a).length_eq

theorem chainStarts_mem_perm (m : ℕ) :
    ∀ (ts : List ℕ) (a s : List α), s ∈ chainStarts m ts a → s.Perm a := by
  intro ts
  induction ts with
  | nil => intro a s hs; simp [chainStarts] at hs
  | cons t ts ih =>
    intro a s hs
    simp only [chainStarts] at hs
    rcases List.mem_cons.mp hs with rfl | hs'
    · exact swapL_perm a m _
    · exact ((ih _ s hs').trans (hbFin_perm m _)).trans (swapL_perm a m _)

theorem levelStarts_mem_perm (m : ℕ) (arr s : List α) (hs : s ∈ levelStarts m arr) :
    s.Perm arr := by
  rcases List.mem_cons.mp hs with heq | hs'
  · rw [heq]
  · exact (chainStarts_mem_perm m _ _ s hs').trans (hbFin_perm m arr)

theorem foldl_blocks (m : ℕ) :
    ∀ (ts : List ℕ) (acc : List (List α) × List α),
      (ts.foldl
        (fun acc t =>
          let a' := swapL acc.2 m (if m % 2 = 1 then t else 0)
          let p := heapBlock m a'
          (acc.1 ++ (a' :: p.1), p.2)) acc).1 =
      acc.1 ++ ((chainStarts m ts acc.2).map (fun s => s :: (heapBlock m s).1)).flatten := by
  intro ts
  induction ts with
  | nil => intro acc; simp [chainStarts]
  | cons t ts ih =>
    intro acc
    rw [List.foldl_cons, ih]
    simp only [chainStarts, List.map_cons, List.flatten_cons, hb_fin]
    rw [List.append_assoc]

theorem allEmitted_succ (m : ℕ) (arr : List α) :
    allEmitted (m + 1) arr = ((levelStarts m arr).map (allEmitted m)).flatten := by
  unfold allEmitted levelStarts
  rw [heapBlock_succ, foldl_blocks]
  simp only [List.map_cons, List.flatten_cons, hb_fin]
  rfl

theorem emitted_perm : ∀ (m : ℕ) (arr l : List α), l ∈ allEmitted m arr → l.Perm arr := by
  intro m
  induction m with
  | zero =>
    intro arr l hl
    rcases List.mem_cons.mp hl with heq | hl'
    · rw [heq]
    · simp [heapBlock] at hl'
  | succ m ih =>
    intro arr l hl
    rw [allEmitted_succ] at hl
    obtain ⟨blk, hblk, hlblk⟩ := List.mem_flatten.mp hl
    obtain ⟨s, hs, rfl⟩ := List.mem_map.mp hblk
    exact (ih s l hlblk).trans (levelStarts_mem_perm m arr s hs)

theorem emitted_length (m : ℕ) (arr l : List α) (hl : l ∈ allEmitted m arr) :
    l.length = arr.length :=
  (emitted_perm m arr l hl).length_eq

theorem heapBlock_append : ∀ (m : ℕ) (l₁ l₂ : List α), m ≤ l₁.length →
    heapBlock m (l₁ ++ l₂) =
      ((heapBlock m l₁).1.map (fun s => s ++ l₂), (heapBlock m l₁).2 ++ l₂) := by
  intro m
  induction m with
  | zero => intro l₁ l₂ _; rfl
  | succ m ih =>
    intro l₁ l₂ hm
    rw [heapBlock_succ, heapBlock_succ]
    have haux : ∀ (ts : List ℕ), (∀ t ∈ ts, t < m) →
        ∀ (L : List (List α)) (b : List α), b.length = l₁.length →
        (ts.foldl
          (fun acc t =>
            let a' := swapL acc.2 m (if m % 2 = 1 then t else 0)
            let p := heapBlock m a'
            (acc.1 ++ (a' :: p.1), p.2)) (L.map (fun s => s ++ l₂), b ++ l₂)) =
        (((ts.foldl
          (fun acc t =>
            let a' := swapL acc.2 m (if m % 2 = 1 then t else 0)
            let p := heapBlock m a'
            (acc.1 ++ (a' :: p.1), p.2)) (L, b)).1).map (fun s => s ++ l₂),
         (ts.foldl
          (fun acc t =>
            let a' := swapL acc.2 m (if m % 2 = 1 then t else 0)
            let p := heapBlock m a'
            (acc.1 ++ (a' :: p.1), p.2)) (L, b)).2 ++ l₂) := by
      intro ts
      induction ts with
      | nil => intro _ L b _; rfl
      | cons t ts iht =>
        intro hts L b hb
        have hkb : (if m % 2 = 1 then t else 0) < b.length := by
          have ht := hts t (List.mem_cons_self t ts)
          split <;> omega
        have hmb : m < b.length := by omega
        rw [List.foldl_cons, List.foldl_cons]
        dsimp only
        rw [swapL_append b l₂ m (if m % 2 = 1 then t else 0) hmb hkb,
          ih (swapL b m (if m % 2 = 1 then t else 0)) l₂
            (by rw [swapL_length]; omega)]
        dsimp only
        have hstep :
            L.map (fun s => s ++ l₂) ++
              ((swapL b m (if m % 2 = 1 then t else 0) ++ l₂) ::
                (heapBlock m (swapL b m (if m % 2 = 1 then t else 0))).1.map
                  (fun s => s ++ l₂)) =
            (L ++ (swapL b m (if m % 2 = 1 then t else 0) ::
              (heapBlock m (swapL b m (if m % 2 = 1 then t else 0))).1)).map
                (fun s => s ++ l₂) := by
          simp
        rw [hstep]
        exact iht (fun t' ht' => hts t' (List.mem_cons_of_mem t ht')) _ _
          (by rw [hb_fin, hbFin_length, swapL_length]; exact hb)
    rw [ih l₁ l₂ (by omega)]
    exact haux (List.range m) (fun t ht => List.mem_range.mp ht)
      (heapBlock m l₁).1 (heapBlock m l₁).2 (by rw [hb_fin, hbFin_length])

theorem hbFin_append (m : ℕ) (l₁ l₂ : List α) (hm : m ≤ l₁.length) :
    heapBlockFin m (l₁ ++ l₂) = heapBlockFin m l₁ ++ l₂ := by
  have h := congrArg Prod.snd (heapBlock_append m l₁ l₂ hm)
  simpa [hb_fin] using h

theorem allEmitted_append (m : ℕ) (l₁ l₂ : List α) (hm : m ≤ l₁.length) :
    allEmitted m (l₁ ++ l₂) = (allEmitted m l₁).map (fun s => s ++ l₂) := by
  unfold allEmitted
  rw [heapBlock_append m l₁ l₂ hm]
  simp

theorem heapBlock_map (f : α → β) : ∀ (m : ℕ) (arr : List α),
    heapBlock m (arr.map f) =
      ((heapBlock m arr).1.map (List.map f), (heapBlock m arr).2.map f) := by
  intro m
  induction m with
  | zero => intro arr; rfl
  | succ m ih =>
    intro arr
    rw [heapBlock_succ, heapBlock_succ]
    have haux : ∀ (ts : List ℕ) (L : List (List α)) (b : List α),
        (ts.foldl
          (fun acc t =>
            let a' := swapL acc.2 m (if m % 2 = 1 then t else 0)
            let p := heapBlock m a'
            (acc.1 ++ (a' :: p.1), p.2)) (L.map (List.map f), b.map f)) =
        (((ts.foldl
          (fun acc t =>
            let a' := swapL acc.2 m (if m % 2 = 1 then t else 0)
            let p := heapBlock m a'
            (acc.1 ++ (a' :: p.1), p.2)) (L, b)).1).map (List.map f),
         (ts.foldl
          (fun acc t =>
            let a' := swapL acc.2 m (if m % 2 = 1 then t else 0)
            let p := heapBlock m a'
            (acc.1 ++ (a' :: p.1), p.2)) (L, b)).2.map f) := by
      intro ts
      induction ts with
      | nil => intro L b; rfl
      | cons t ts iht =>
        intro L b
        rw [List.foldl_cons, List.foldl_cons]
        dsimp only
        rw [swapL_map f b m (if m % 2 = 1 then t else 0),
          ih (swapL b m (if m % 2 = 1 then t else 0))]
        dsimp only
        have hstep :
            L.map (List.map f) ++
              ((swapL b m (if m % 2 = 1 then t else 0)).map f ::
                (heapBlock m (swapL b m (if m % 2 = 1 then t else 0))).1.map
                  (List.map f)) =
            (L ++ (swapL b m (if m % 2 = 1 then t else 0) ::
              (heapBlock m (swapL b m (if m % 2 = 1 then t else 0))).1)).map
                (List.map f) := by
          simp
        rw [hstep]
        exact iht _ _
    rw [ih arr]
    exact haux (List.range m) (heapBlock m arr).1 (heapBlock m arr).2

theorem hbFin_map (f : α → β) (m : ℕ) (arr : List α) :
    heapBlockFin m (arr.map f) = (heapBlockFin m arr).map f := by
  have h := congrArg Prod.snd (heapBlock_map f m arr)
  simpa [hb_fin] using h

theorem chainStarts_map (f : α → β) (m : ℕ) : ∀ (ts : List ℕ) (a : List α),
    chainStarts m ts (a.map f) = (chainStarts m ts a).map (List.map f) := by
  intro ts
  induction ts with
  | nil => intro a; rfl
  | cons t ts ih =>
    intro a
    simp only [chainStarts]
    rw [swapL_map f a m (if m % 2 = 1 then t else 0),
      hbFin_map f m (swapL a m (if m % 2 = 1 then t else 0)),
      ih (heapBlockFin m (swapL a m (if m % 2 = 1 then t else 0)))]
    simp

theorem levelStarts_map (f : α → β) (m : ℕ) (arr : List α) :
    levelStarts m (arr.map f) = (levelStarts m arr).map (List.map f) := by
  unfold levelStarts
  rw [hbFin_map f m arr, chainStarts_map f m (List.range m) (heapBlockFin m arr)]
  simp

theorem lastVals_map (f : α → β) (m : ℕ) (arr : List α) :
    lastVals m (arr.map f) = (lastVals m arr).map (Option.map f) := by
  unfold lastVals
  rw [levelStarts_map f m arr, List.map_map, List.map_map]
  apply List.map_congr_left
  intro s _
  simp [Function.comp]

theorem range_map_getD (l : List α) (d : α) : ∀ (n : ℕ), l.length = n →
    (List.range n).map (fun j => l.getD j d) = l := by
  intro n hn
  apply List.ext_getElem
  · simp [hn]
  · intro i h₁ h₂
    simp only [List.getElem_map, List.getElem_range]
    exact List.getD_eq_getElem l d h₂

theorem hbFin_eval (m n : ℕ) (LIT : List ℕ)
    (heq : heapBlockFin m (List.range n) = LIT) :
    ∀ (l : List ℕ), l.length = n → heapBlockFin m l = evalIdx LIT l := by
  intro l hl
  have hf := range_map_getD l 0 n hl
  calc heapBlockFin m l
      = heapBlockFin m ((List.range n).map (fun j => l.getD j 0)) := by rw [hf]
    _ = (heapBlockFin m (List.range n)).map (fun j => l.getD j 0) :=
        hbFin_map _ m _
    _ = evalIdx LIT l := by rw [heq]; rfl

theorem foldl_eval (m n : ℕ) (LIT : List ℕ)
    (heq : heapBlockFin m (List.range n) = LIT) (hLn : LIT.length = n) :
    ∀ (ts : List ℕ) (a : List ℕ), a.length = n →
    ts.foldl (fun a t => heapBlockFin m (swapL a m (if m % 2 = 1 then t else 0))) a =
    ts.foldl (fun a t => evalIdx LIT (swapL a m (if m % 2 = 1 then t else 0))) a := by
  intro ts
  induction ts with
  | nil => intro a _; rfl
  | cons t ts ih =>
    intro a ha
    rw [List.foldl_cons, List.foldl_cons,
      hbFin_eval m n LIT heq (swapL a m (if m % 2 = 1 then t else 0))
        (by rw [swapL_length]; exact ha)]
    exact ih _ (by simp [evalIdx, hLn])

theorem chainStarts_evalL (m n : ℕ) (LIT : List ℕ)
    (heq : heapBlockFin m (List.range n) = LIT) (hLn : LIT.length = n) :
    ∀ (ts : List ℕ) (a : List ℕ), a.length = n →
    chainStarts m ts a = chainStartsL LIT m ts a := by
  intro ts
  induction ts with
  | nil => intro a _; rfl
  | cons t ts ih =>
    intro a ha
    simp only [chainStarts, chainStartsL]
    rw [hbFin_eval m n LIT heq (swapL a m (if m % 2 = 1 then t else 0))
      (by rw [swapL_length]; exact ha)]
    rw [ih (evalIdx LIT (swapL a m (if m % 2 = 1 then t else 0)))
      (by simp [evalIdx, hLn])]

set_option maxRecDepth 100000 in
theorem hbFin_range6_4 : heapBlockFin 4 (List.range 6) = [1, 2, 3, 0, 4, 5] := by
  decide

theorem hbFin_range6_5 : heapBlockFin 5 (List.range 6) = [4, 1, 2, 3, 0, 5] := by
  rw [heapBlockFin_succ, hbFin_range6_4,
    foldl_eval 4 6 [1, 2, 3, 0, 4, 5] hbFin_range6_4 (by decide)
      (List.range 4) [1, 2, 3, 0, 4, 5] (by decide)]
  decide

set_option maxRecDepth 100000 in
theorem hbFin_range7_4 : heapBlockFin 4 (List.range 7) = [1, 2, 3, 0, 4, 5, 6] := by
  decide

theorem hbFin_range7_5 : heapBlockFin 5 (List.range 7) = [4, 1, 2, 3, 0, 5, 6] := by
  rw [heapBlockFin_succ, hbFin_range7_4,
    foldl_eval 4 7 [1, 2, 3, 0, 4, 5, 6] hbFin_range7_4 (by decide)
      (List.range 4) [1, 2, 3, 0, 4, 5, 6] (by decide)]
  decide

theorem hbFin_range7_6 : heapBlockFin 6 (List.range 7) = [3, 4, 1, 2, 5, 0, 6] := by
  rw [heapBlockFin_succ, hbFin_range7_5,
    foldl_eval 5 7 [4, 1, 2, 3, 0, 5, 6] hbFin_range7_5 (by decide)
      (List.range 5) [4, 1, 2, 3, 0, 5, 6] (by decide)]
  decide

set_option maxRecDepth 100000 in
theorem hbFin_range8_4 : heapBlockFin 4 (List.range 8) = [1, 2, 3, 0, 4, 5, 6, 7] := by
  decide

theorem hbFin_range8_5 : heapBlockFin 5 (List.range 8) = [4, 1, 2, 3, 0, 5, 6, 7] := by
  rw [heapBlockFin_succ, hbFin_range8_4,
    foldl_eval 4 8 [1, 2, 3, 0, 4, 5, 6, 7] hbFin_range8_4 (by decide)
      (List.range 4) [1, 2, 3, 0, 4, 5, 6, 7] (by decide)]
  decide

theorem hbFin_range8_6 : heapBlockFin 6 (List.range 8) = [3, 4, 1, 2, 5, 0, 6, 7] := by
  rw [heapBlockFin_succ, hbFin_range8_5,
    foldl_eval 5 8 [4, 1, 2, 3, 0, 5, 6, 7] hbFin_range8_5 (by decide)
      (List.range 5) [4, 1, 2, 3, 0, 5, 6, 7] (by decide)]
  decide

theorem hbFin_range8_7 : heapBlockFin 7 (List.range 8) = [6, 1, 2, 3, 4, 5, 0, 7] := by
  rw [heapBlockFin_succ, hbFin_range8_6,
    foldl_eval 6 8 [3, 4, 1, 2, 5, 0, 6, 7] hbFin_range8_6 (by decide)
      (List.range 6) [3, 4, 1, 2, 5, 0, 6, 7] (by decide)]
  decide

theorem levelFact_0 : LevelFact 0 := by
  unfold LevelFact
  decide

theorem levelFact_1 : LevelFact 1 := by
  unfold LevelFact
  decide

theorem levelFact_2 : LevelFact 2 := by
  unfold LevelFact
  decide

theorem levelFact_3 : LevelFact 3 := by
  unfold LevelFact
  decide

set_option maxRecDepth 40000 in
theorem levelFact_4 : LevelFact 4 := by
  unfold LevelFact
  decide

set_option maxRecDepth 40000 in
theorem levelFact_5 : LevelFact 5 := by
  unfold LevelFact lastVals levelStarts
  rw [hbFin_range6_5,
    chainStarts_evalL 5 6 [4, 1, 2, 3, 0, 5] hbFin_range6_5 (by decide)
      (List.range 5) [4, 1, 2, 3, 0, 5] (by decide)]
  decide

set_option maxRecDepth 40000 in
theorem levelFact_6 : LevelFact 6 := by
  unfold LevelFact lastVals levelStarts
  rw [hbFin_range7_6,
    chainStarts_evalL 6 7 [3, 4, 1, 2, 5, 0, 6] hbFin_range7_6 (by decide)
      (List.range 6) [3, 4, 1, 2, 5, 0, 6] (by decide)]
  decide

set_option maxRecDepth 40000 in
theorem levelFact_7 : LevelFact 7 := by
  unfold LevelFact lastVals levelStarts
  rw [hbFin_range8_7,
    chainStarts_evalL 7 8 [6, 1, 2, 3, 4, 5, 0, 7] hbFin_range8_7 (by decide)
      (List.range 7) [6, 1, 2, 3, 4, 5, 0, 7] (by decide)]
  decide

theorem levelFact_all : ∀ m : ℕ, m ≤ 7 → LevelFact m := by
  intro m hm
  interval_cases m
  · exact levelFact_0
  · exact levelFact_1
  · exact levelFact_2
  · exact levelFact_3
  · exact levelFact_4
  · exact levelFact_5
  · exact levelFact_6
  · exact levelFact_7

theorem emitted_last (m : ℕ) (s : List α) (hlen : s.length = m + 1) :
    ∀ l ∈ allEmitted m s, l[m]? = s[m]? := by
  intro l hl
  have hse : s.take m ++ s.drop m = s := List.take_append_drop m s
  have htl : (s.take m).length = m := by
    rw [List.length_take, hlen]; omega
  rw [← hse, allEmitted_append m (s.take m) (s.drop m) (by omega)] at hl
  obtain ⟨u, hu, rfl⟩ := List.mem_map.mp hl
  have hul : u.length = m := by
    rw [emitted_length m (s.take m) u hu, htl]
  rw [List.getElem?_append_right (by omega), hul, Nat.sub_self,
    List.getElem?_drop, Nat.add_zero]

theorem lastVals_facts (m : ℕ) (hm : m ≤ 7) (arr : List α) (d : α)
    (hlen : arr.length = m + 1) (hnd : arr.Nodup) :
    (lastVals m arr).Nodup ∧ (lastVals m arr).Perm (arr.map some) := by
  obtain ⟨hnd₀, hperm₀⟩ := levelFact_all m hm
  have hf : (List.range (m + 1)).map (fun j => arr.getD j d) = arr :=
    range_map_getD arr d (m + 1) hlen
  have hLV : lastVals m arr =
      (lastVals m (List.range (m + 1))).map (Option.map (fun j => arr.getD j d)) := by
    have h := lastVals_map (fun j => arr.getD j d) m (List.range (m + 1))
    rw [hf] at h
    exact h
  have hmem : ∀ z ∈ lastVals m (List.range (m + 1)), ∃ j < m + 1, z = some j := by
    intro z hz
    have hz2 : z ∈ (List.range (m + 1)).map some := hperm₀.mem_iff.mp hz
    obtain ⟨j, hj, rfl⟩ := List.mem_map.mp hz2
    exact ⟨j, List.mem_range.mp hj, rfl⟩
  constructor
  · rw [hLV]
    apply List.Nodup.map_on _ hnd₀
    intro x hx y hy hxy
    obtain ⟨j, hj, rfl⟩ := hmem x hx
    obtain ⟨j', hj', rfl⟩ := hmem y hy
    simp only [Option.map_some'] at hxy
    rw [List.getD_eq_getElem arr d (by omega),
      List.getD_eq_getElem arr d (by omega)] at hxy
    exact congrArg some
      ((List.Nodup.getElem_inj_iff hnd).mp (Option.some_inj.mp hxy))
  · rw [hLV]
    refine (hperm₀.map (Option.map (fun j => arr.getD j d))).trans ?_
    rw [List.map_map]
    have h3 : (Option.map (fun j => arr.getD j d)) ∘ some =
        some ∘ (fun j => arr.getD j d) := rfl
    rw [h3, ← List.map_map, hf]

theorem heapMain : ∀ (m : ℕ), m ≤ 8 → ∀ (arr : List α), arr.length = m → arr.Nodup →
    (allEmitted m arr).Nodup ∧ ∀ l, l ∈ allEmitted m arr ↔ l.Perm arr := by
  intro m
  induction m with
  | zero =>
    intro _ arr hlen _
    have harr : arr = [] := List.length_eq_zero.mp hlen
    subst harr
    constructor
    · exact List.nodup_singleton []
    · intro l
      simp [allEmitted, heapBlock]
  | succ m ih =>
    intro hm8 arr hlen hnd
    have hm7 : m ≤ 7 := by omega
    obtain ⟨d, rest, hdr⟩ : ∃ d rest, arr = d :: rest := by
      cases arr with
      | nil => simp at hlen
      | cons a t => exact ⟨a, t, rfl⟩
    have hLVf := lastVals_facts m hm7 arr d hlen hnd
    have hblock : ∀ s ∈ levelStarts m arr,
        allEmitted m s = (allEmitted m (s.take m)).map (fun u => u ++ s.drop m) := by
      intro s hs
      have hslen : s.length = m + 1 := by
        rw [(levelStarts_mem_perm m arr s hs).length_eq, hlen]
      conv_lhs => rw [← List.take_append_drop m s]
      exact allEmitted_append m (s.take m) (s.drop m)
        (by rw [List.length_take, hslen]; omega)
    have hIH : ∀ s ∈ levelStarts m arr,
        (allEmitted m (s.take m)).Nodup ∧
          ∀ u, u ∈ allEmitted m (s.take m) ↔ u.Perm (s.take m) := by
      intro s hs
      have hsp := levelStarts_mem_perm m arr s hs
      have hslen : s.length = m + 1 := by rw [hsp.length_eq, hlen]
      have hsnd : s.Nodup := hsp.nodup_iff.mpr hnd
      exact ih (by omega) (s.take m) (by rw [List.length_take, hslen]; omega)
        (hsnd.sublist (List.take_sublist m s))
    have hlast : ∀ s ∈ levelStarts m arr, ∀ l ∈ allEmitted m s, l[m]? = s[m]? := by
      intro s hs
      exact emitted_last m s
        (by rw [(levelStarts_mem_perm m arr s hs).length_eq, hlen])
    rw [allEmitted_succ]
    constructor
    · rw [List.nodup_flatten]
      constructor
      · intro b hb
        obtain ⟨s, hs, rfl⟩ := List.mem_map.mp hb
        rw [hblock s hs]
        exact ((hIH s hs).1).map (List.append_left_injective (s.drop m))
      · have hpw : (levelStarts m arr).Pairwise (fun s s' => s[m]? ≠ s'[m]?) :=
          List.pairwise_map.mp hLVf.1
        rw [List.pairwise_map]
        refine hpw.imp_of_mem ?_
        intro s s' hs hs' hne l hl hl'
        exact hne (((hlast s hs l hl).symm).trans (hlast s' hs' l hl'))
    · intro l
      constructor
      · intro hl
        rw [← allEmitted_succ] at hl
        exact emitted_perm (m + 1) arr l hl
      · intro hlp
        have hllen : l.length = m + 1 := by rw [hlp.length_eq, hlen]
        have hvmem : some (l.getD m d) ∈ arr.map some := by
          have hmem_l : l.getD m d ∈ l := by
            rw [List.getD_eq_getElem l d (by omega)]
            exact List.getElem_mem _
          exact List.mem_map_of_mem some (hlp.subset hmem_l)
        have hvlv : some (l.getD m d) ∈ lastVals m arr := hLVf.2.mem_iff.mpr hvmem
        obtain ⟨s, hs, hsv⟩ := List.mem_map.mp hvlv
        have hsp := levelStarts_mem_perm m arr s hs
        have hslen : s.length = m + 1 := by rw [hsp.length_eq, hlen]
        have hsd : s.drop m = [l.getD m d] := by
          rw [List.drop_eq_getElem_cons (by omega : m < s.length),
            List.drop_eq_nil_of_le (by omega)]
          have h2 : some s[m] = some (l.getD m d) := by
            rw [← List.getElem?_eq_getElem (by omega : m < s.length)]
            exact hsv
          rw [Option.some_inj.mp h2]
        have hld : l.drop m = [l.getD m d] := by
          rw [List.drop_eq_getElem_cons (by omega : m < l.length),
            List.drop_eq_nil_of_le (by omega), List.getD_eq_getElem l d (by omega)]
        have htp : (l.take m).Perm (s.take m) := by
          have hls : l.Perm s := hlp.trans hsp.symm
          have h1 : (l.take m ++ [l.getD m d]).Perm (s.take m ++ [l.getD m d]) := by
            have hle : l.take m ++ [l.getD m d] = l := by
              rw [← hld, List.take_append_drop]
            have hse2 : s.take m ++ [l.getD m d] = s := by
              rw [← hsd, List.take_append_drop]
            rw [hle, hse2]
            exact hls
          have h2 := ((List.perm_append_singleton (l.getD m d) (l.take m)).symm.trans
            h1).trans (List.perm_append_singleton (l.getD m d) (s.take m))
          exact h2.cons_inv
        have hmem_u : l.take m ∈ allEmitted m (s.take m) :=
          ((hIH s hs).2 (l.take m)).mpr htp
        have hlin : l ∈ allEmitted m s := by
          rw [hblock s hs]
          refine List.mem_map.mpr ⟨l.take m, hmem_u, ?_⟩
          rw [hsd, ← hld, List.take_append_drop]
        exact List.mem_flatten.mpr
          ⟨allEmitted m s, List.mem_map_of_mem (allEmitted m) hs, hlin⟩

theorem foldl_acc (m : ℕ) : ∀ (ts : List ℕ) (L : List (List α)) (b : List α),
    (ts.foldl
      (fun acc t =>
        let a' := swapL acc.2 m (if m % 2 = 1 then t else 0)
        let p := heapBlock m a'
        (acc.1 ++ (a' :: p.1), p.2)) (L, b)) =
    (L ++ (ts.foldl
      (fun acc t =>
        let a' := swapL acc.2 m (if m % 2 = 1 then t else 0)
        let p := heapBlock m a'
        (acc.1 ++ (a' :: p.1), p.2)) ([], b)).1,
     (ts.foldl
      (fun acc t =>
        let a' := swapL acc.2 m (if m % 2 = 1 then t else 0)
        let p := heapBlock m a'
        (acc.1 ++ (a' :: p.1), p.2)) ([], b)).2) := by
  intro ts
  induction ts with
  | nil => intro L b; simp
  | cons t ts ih =>
    intro L b
    rw [List.foldl_cons, List.foldl_cons]
    dsimp only [List.nil_append]
    rw [ih (L ++ (swapL b m (if m % 2 = 1 then t else 0) ::
        (heapBlock m (swapL b m (if m % 2 = 1 then t else 0))).1))
      (heapBlock m (swapL b m (if m % 2 = 1 then t else 0))).2,
      ih (swapL b m (if m % 2 = 1 then t else 0) ::
        (heapBlock m (swapL b m (if m % 2 = 1 then t else 0))).1)
      (heapBlock m (swapL b m (if m % 2 = 1 then t else 0))).2]
    simp [List.append_assoc]

theorem heapRun_succ (fuel : ℕ) (array : List α) (c : ℕ → ℕ) (i : ℕ) :
    heapRun (fuel + 1) array c i =
      if i < array.length then
        if c i < i then
          (heapRun fuel (swapL array i (if i % 2 = 1 then c i else 0))
            (fun j => if j = i then c i + 1 else c j) 0).map
            (fun p => ((swapL array i (if i % 2 = 1 then c i else 0)) :: p.1, p.2))
        else
          heapRun fuel array (fun j => if j = i then 0 else c j) (i + 1)
      else
        some ([], array) := rfl

theorem heapRun_block : ∀ (m : ℕ) (arr : List α) (c : ℕ → ℕ) (f : ℕ),
    m ≤ arr.length → (∀ j, j < m → c j = 0) →
    heapRun (stepsB m + f) arr c 0 =
      (heapRun f (heapBlock m arr).2 c m).map
        (fun p => ((heapBlock m arr).1 ++ p.1, p.2)) := by
  intro m
  induction m with
  | zero =>
    intro arr c f _ _
    show heapRun (0 + f) arr c 0 = (heapRun f arr c 0).map (fun p => ([] ++ p.1, p.2))
    rw [Nat.zero_add]
    cases h : heapRun f arr c 0 with
    | none => rfl
    | some p => rfl
  | succ m ih =>
    intro arr c f hm hc
    have hfuel : stepsB (m + 1) + f = stepsB m + (m * (1 + stepsB m) + 1 + f) := by
      have h1 : stepsB (m + 1) = stepsB m + (m * (1 + stepsB m) + 1) := rfl
      omega
    rw [hfuel, ih arr c (m * (1 + stepsB m) + 1 + f) (by omega)
      (fun j hj => hc j (by omega))]
    have hround : ∀ (r : ℕ), ∀ (t : ℕ) (b : List α) (c' : ℕ → ℕ), t + r = m →
        b.length = arr.length → (∀ j, j < m → c' j = 0) → c' m = t →
        heapRun (r * (1 + stepsB m) + 1 + f) b c' m =
          (heapRun f ((List.range' t r).foldl
              (fun acc t =>
                let a' := swapL acc.2 m (if m % 2 = 1 then t else 0)
                let p := heapBlock m a'
                (acc.1 ++ (a' :: p.1), p.2)) ([], b)).2
            (fun j => if j = m then 0 else c' j) (m + 1)).map
            (fun p => (((List.range' t r).foldl
              (fun acc t =>
                let a' := swapL acc.2 m (if m % 2 = 1 then t else 0)
                let p := heapBlock m a'
                (acc.1 ++ (a' :: p.1), p.2)) ([], b)).1 ++ p.1, p.2)) := by
      intro r
      induction r with
      | zero =>
        intro t b c' htr hb hc' hcm
        rw [show 0 * (1 + stepsB m) + 1 + f = f + 1 from by ring]
        rw [heapRun_succ]
        rw [if_pos (by omega : m < b.length), if_neg (by omega : ¬ c' m < m)]
        simp only [List.range'_zero, List.foldl_nil]
        cases h : heapRun f b (fun j => if j = m then 0 else c' j) (m + 1) with
        | none => rfl
        | some p => rfl
      | succ r ihr =>
        intro t b c' htr hb hc' hcm
        rw [show (r + 1) * (1 + stepsB m) + 1 + f =
          (stepsB m + (r * (1 + stepsB m) + 1 + f)) + 1 from by ring]
        rw [heapRun_succ]
        rw [if_pos (by omega : m < b.length), if_pos (by omega : c' m < m), hcm]
        rw [ih (swapL b m (if m % 2 = 1 then t else 0))
          (fun j => if j = m then t + 1 else c' j) (r * (1 + stepsB m) + 1 + f)
          (by rw [swapL_length]; omega)
          (fun j hj => by
            simp only [if_neg (show ¬ j = m by omega)]
            exact hc' j hj)]
        rw [ihr (t + 1) (heapBlock m (swapL b m (if m % 2 = 1 then t else 0))).2
          (fun j => if j = m then t + 1 else c' j) (by omega)
          (by rw [hb_fin, hbFin_length, swapL_length]; exact hb)
          (fun j hj => by
            simp only [if_neg (show ¬ j = m by omega)]
            exact hc' j hj)
          (by simp)]
        have hcx : (fun j => if j = m then 0 else
            (fun j => if j = m then t + 1 else c' j) j) =
            (fun j => if j = m then 0 else c' j) := by
          funext j
          by_cases hj : j = m
          · simp [hj]
          · simp [hj]
        rw [hcx, List.range'_succ, List.foldl_cons]
        dsimp only [List.nil_append]
        rw [foldl_acc m (List.range' (t + 1) r)
          (swapL b m (if m % 2 = 1 then t else 0) ::
            (heapBlock m (swapL b m (if m % 2 = 1 then t else 0))).1)
          (heapBlock m (swapL b m (if m % 2 = 1 then t else 0))).2]
        dsimp only
        cases h : heapRun f ((List.range' (t + 1) r).foldl
            (fun acc t =>
              let a' := swapL acc.2 m (if m % 2 = 1 then t else 0)
              let p := heapBlock m a'
              (acc.1 ++ (a' :: p.1), p.2))
            ([], (heapBlock m (swapL b m (if m % 2 = 1 then t else 0))).2)).2
            (fun j => if j = m then 0 else c' j) (m + 1) with
        | none => rfl
        | some p => simp [List.append_assoc]
    have hc0 : (fun j => if j = m then 0 else c j) = c := by
      funext j
      by_cases hj : j = m
      · rw [if_pos hj, hj, hc m (by omega)]
      · rw [if_neg hj]
    have h0 := hround m 0 (heapBlock m arr).2 c (by omega)
      (by rw [hb_fin, hbFin_length]) (fun j hj => hc j (by omega))
      (hc m (by omega))
    rw [h0, hc0, heapBlock_succ, List.range_eq_range',
      foldl_acc m (List.range' 0 m) (heapBlock m arr).1 (heapBlock m arr).2]
    dsimp only
    cases h : heapRun f ((List.range' 0 m).foldl
        (fun acc t =>
          let a' := swapL acc.2 m (if m % 2 = 1 then t else 0)
          let p := heapBlock m a'
          (acc.1 ++ (a' :: p.1), p.2)) ([], (heapBlock m arr).2)).2
        c (m + 1) with
    | none => rfl
    | some p => simp [List.append_assoc]

theorem perm_cons_eraseIdx (l : List α) (i : ℕ) (hi : i < l.length) :
    l.Perm (l[i] :: l.eraseIdx i) := by
  conv_lhs => rw [← List.take_append_drop i l, List.drop_eq_getElem_cons hi]
  rw [List.eraseIdx_eq_take_drop_succ]
  exact List.perm_middle

theorem getPermsAux_spec : ∀ (fuel : ℕ) (array : List α), array.length ≤ fuel →
    array.Nodup →
    (getPermsAux fuel array).Nodup ∧
      ∀ l, l ∈ getPermsAux fuel array ↔ l.Perm array := by
  intro fuel
  induction fuel with
  | zero =>
    intro array hlen _
    have harr : array = [] := List.length_eq_zero.mp (by omega)
    subst harr
    constructor
    · exact List.nodup_singleton []
    · intro l; simp [getPermsAux]
  | succ fuel ih =>
    intro array hlen hnd
    by_cases h1 : array.length ≤ 1
    · simp only [getPermsAux, if_pos h1]
      constructor
      · exact List.nodup_singleton array
      · intro l
        simp only [List.mem_singleton]
        constructor
        · intro h; rw [h]
        · intro hp
          cases array with
          | nil => exact List.perm_nil.mp hp
          | cons a t =>
            cases t with
            | nil => exact List.perm_singleton.mp hp
            | cons b u =>
              exact absurd h1 (by simp only [List.length_cons]; omega)
    · obtain ⟨d, rest, hdr⟩ : ∃ d rest, array = d :: rest := by
        cases array with
        | nil => simp at h1
        | cons a t => exact ⟨a, t, rfl⟩
      by_cases h8 : 8 < array.length
      · simp only [getPermsAux, if_neg h1, if_pos h8]
        have hGL : getPermutationsLarger (getPermsAux fuel) array =
            ((List.range array.length).map (fun i =>
              (getPermsAux fuel (array.eraseIdx i)).map
                (fun p => array.getD i d :: p))).flatten := by
          unfold getPermutationsLarger
          rw [if_neg h1]
          congr 1
          apply List.map_congr_left
          intro i hi
          have hi' : i < array.length := List.mem_range.mp hi
          rw [List.getElem?_eq_getElem hi', List.getD_eq_getElem array d hi']
        have hsub : ∀ i, i < array.length →
            (array.eraseIdx i).length ≤ fuel ∧ (array.eraseIdx i).Nodup := by
          intro i hi
          constructor
          · rw [List.length_eraseIdx_of_lt hi]; omega
          · exact hnd.sublist (List.eraseIdx_sublist array i)
        rw [hGL]
        constructor
        · rw [List.nodup_flatten]
          constructor
          · intro b hb
            obtain ⟨i, hi, rfl⟩ := List.mem_map.mp hb
            have hi' := List.mem_range.mp hi
            exact ((ih (array.eraseIdx i) (hsub i hi').1 (hsub i hi').2).1).map
              (fun p q hpq => by injection hpq)
          · rw [List.pairwise_map]
            refine (List.pairwise_lt_range array.length).imp_of_mem ?_
            intro i i' hi hi' hlt l hl hl'
            obtain ⟨p, hp, rfl⟩ := List.mem_map.mp hl
            obtain ⟨q, hq, heq⟩ := List.mem_map.mp hl'
            have hi2 := List.mem_range.mp hi
            have hi2' := List.mem_range.mp hi'
            have hne : array.getD i d ≠ array.getD i' d := by
              rw [List.getD_eq_getElem array d hi2, List.getD_eq_getElem array d hi2']
              intro hcon
              exact absurd ((List.Nodup.getElem_inj_iff hnd).mp hcon) (by omega)
            injection heq with hh ht2
            exact hne hh.symm
        · intro l
          constructor
          · intro hl
            obtain ⟨b, hb, hlb⟩ := List.mem_flatten.mp hl
            obtain ⟨i, hi, rfl⟩ := List.mem_map.mp hb
            obtain ⟨p, hp, rfl⟩ := List.mem_map.mp hlb
            have hi' := List.mem_range.mp hi
            have hperm := ((ih (array.eraseIdx i) (hsub i hi').1 (hsub i hi').2).2 p).mp hp
            have hmid : array.Perm (array.getD i d :: array.eraseIdx i) := by
              rw [List.getD_eq_getElem array d hi']
              exact perm_cons_eraseIdx array i hi'
            exact (hperm.cons (array.getD i d)).trans hmid.symm
          · intro hlp
            obtain ⟨x, t, rfl⟩ : ∃ x t, l = x :: t := by
              cases l with
              | nil =>
                have := hlp.length_eq
                simp at this
                omega
              | cons a t => exact ⟨a, t, rfl⟩
            have hx : x ∈ array := hlp.subset (List.mem_cons_self x t)
            obtain ⟨i, hi, hxi⟩ := List.mem_iff_getElem.mp hx
            have ht : t.Perm (array.eraseIdx i) := by
              have h2 := hlp.trans (perm_cons_eraseIdx array i hi)
              rw [hxi] at h2
              exact h2.cons_inv
            refine List.mem_flatten.mpr
              ⟨(getPermsAux fuel (array.eraseIdx i)).map (fun p => array.getD i d :: p),
                List.mem_map.mpr ⟨i, List.mem_range.mpr hi, rfl⟩, ?_⟩
            refine List.mem_map.mpr
              ⟨t, ((ih (array.eraseIdx i) (hsub i hi).1 (hsub i hi).2).2 t).mpr ht, ?_⟩
            rw [List.getD_eq_getElem array d hi, hxi]
      · have hrun := heapRun_block array.length array (fun _ => 0) 1 le_rfl
          (fun j hj => rfl)
        have hlen2 : (heapBlock array.length array).2.length = array.length := by
          rw [hb_fin, hbFin_length]
        have h1run : heapRun 1 (heapBlock array.length array).2 (fun _ => 0)
            array.length = some ([], (heapBlock array.length array).2) := by
          rw [heapRun_succ]
          rw [if_neg (by omega : ¬ array.length < (heapBlock array.length array).2.length)]
        simp only [getPermsAux, if_neg h1, if_neg h8]
        rw [hrun, h1run]
        simp only [Option.map_some', List.append_nil]
        exact heapMain array.length (by omega) array rfl hnd

theorem getPermutationsLarger_congr (r₁ r₂ : List α → List (List α)) (array : List α)
    (h : ∀ i, i < array.length → r₁ (array.eraseIdx i) = r₂ (array.eraseIdx i)) :
    getPermutationsLarger r₁ array = getPermutationsLarger r₂ array := by
  unfold getPermutationsLarger
  split
  · rfl
  · congr 1
    apply List.map_congr_left
    intro i hi
    rw [h i (List.mem_range.mp hi)]

theorem getPermutations_fallback (array : List α) (h8 : 8 < array.length) :
    getPermutations array = getPermutationsLarger getPermutations array := by
  obtain ⟨n, hn⟩ : ∃ n, array.length = n + 1 := ⟨array.length - 1, by omega⟩
  have hstep : getPermutations array = getPermutationsLarger (getPermsAux n) array := by
    unfold getPermutations
    rw [hn]
    simp only [getPermsAux]
    rw [if_neg (by omega : ¬ array.length ≤ 1), if_pos h8]
  rw [hstep]
  apply getPermutationsLarger_congr
  intro i hi
  unfold getPermutations
  congr 1
  rw [List.length_eraseIdx_of_lt hi]
  omega

/-- **C7**: for every array of pairwise-distinct elements, `getPermutations`
produces all `n!` orderings with each permutation present exactly once (the
result has no duplicates, its members are exactly the permutations of the
input, and its length is `n!`); for arrays longer than 8 elements it falls
back to the recursive generator `getPermutationsLarger` rather than
refusing; and `getPermutations [1, 2, 3]` yields exactly the set of six
sequences `[1,2,3], [2,1,3], [3,1,2], [1,3,2], [2,3,1], [3,2,1]`. -/
theorem claim_C7_getPermutations (arr : List α) (hnd : arr.Nodup) :
    ((getPermutations arr).Nodup ∧
      (∀ l, l ∈ getPermutations arr ↔ l.Perm arr) ∧
      (getPermutations arr).length = Nat.factorial arr.length) ∧
    (8 < arr.length →
      getPermutations arr = getPermutationsLarger getPermutations arr) ∧
    (getPermutations ([1, 2, 3] : List ℤ)).Perm
      [[1, 2, 3], [2, 1, 3], [3, 1, 2], [1, 3, 2], [2, 3, 1], [3, 2, 1]] := by
  obtain ⟨hna, hiff⟩ := getPermsAux_spec arr.length arr le_rfl hnd
  refine ⟨⟨hna, hiff, ?_⟩, ?_, ?_⟩
  · have hperm : (getPermutations arr).Perm arr.permutations :=
      (List.perm_ext_iff_of_nodup hna (List.nodup_permutations arr hnd)).mpr
        (fun l => (hiff l).trans List.mem_permutations.symm)
    rw [hperm.length_eq, List.length_permutations]
  · intro h8
    exact getPermutations_fallback arr h8
  · decide

/-- Witness for `claim_C7_getPermutations`: the concrete distinct-element
array `[1, 2, 3]` satisfies the hypothesis and the conclusion. -/
theorem claim_C7_witness :
    ([1, 2, 3] : List ℤ).Nodup ∧
      (((getPermutations ([1, 2, 3] : List ℤ)).Nodup ∧
        (∀ l, l ∈ getPermutations ([1, 2, 3] : List ℤ) ↔ l.Perm [1, 2, 3]) ∧
        (getPermutations ([1, 2, 3] : List ℤ)).length =
          Nat.factorial ([1, 2, 3] : List ℤ).length) ∧
      (8 < ([1, 2, 3] : List ℤ).length →
        getPermutations ([1, 2, 3] : List ℤ) =
          getPermutationsLarger getPermutations [1, 2, 3]) ∧
      (getPermutations ([1, 2, 3] : List ℤ)).Perm
        [[1, 2, 3], [2, 1, 3], [3, 1, 2], [1, 3, 2], [2, 3, 1], [3, 2, 1]]) :=
  ⟨by decide, claim_C7_getPermutations ([1, 2, 3] : List ℤ) (by decide)⟩

end PermLemmas

end AoC
